import Mathlib

/-!
Shallow embedding of `httpie/cli/options.py`: the declarative command-line
specification model (`Qualifiers`, `Argument`, `Group`, `ParserSpec`) and its
two compilers (`Argument.serialize`/`ParserSpec.serialize` producing the JSON
schema document, and `to_argparse` producing a concrete parser).

Python dictionaries are modelled as association lists `List (String × PyValue)`
with first-match lookup; Python values relevant to the configuration bags are
modelled by the inductive `PyValue` (including `pyNone` for Python `None`).
Fallible operations (dictionary `KeyError`, `IndexError`, attribute errors)
are modelled with `Option`.
-/

set_option autoImplicit false

namespace HttpieOptions

/-- The `Qualifiers` enum of `options.py`: cardinality / visibility modifiers. -/
inductive Qualifiers where
  | OPTIONAL
  | ZERO_OR_MORE
  | SUPPRESS
deriving DecidableEq, Repr

/-- Python values that can appear in an `Argument`'s configuration bag or in a
serialized schema mapping: strings, ints, bools, `Qualifiers` members, lists of
strings, `None`, callables carrying a `__name__` (`func`), and other objects
whose class name is recorded (`obj`). -/
inductive PyValue where
  | str (s : String)
  | int (n : Int)
  | bool (b : Bool)
  | qualifier (q : Qualifiers)
  | strList (xs : List String)
  | pyNone
  | func (name : String)
  | obj (className : String)
deriving DecidableEq, Repr

/-- A Python `dict` with string keys, as an association list in insertion
order (keys are unique in any dictionary produced by the real code). -/
abbrev Config := List (String × PyValue)

/-- Dictionary lookup (`d.get(k)` / `d[k]`): first entry with the given key. -/
def cfgGet : Config → String → Option PyValue
  | [], _ => none
  | p :: rest, k => if p.1 = k then some p.2 else cfgGet rest k

/-- Dictionary key-membership test (`k in d`). -/
def cfgHasKey (m : Config) (k : String) : Bool :=
  m.any (fun p => p.1 == k)

/-- Dictionary assignment `d[k] = v`: overwrite the entry in place when the
key is present, otherwise append a new entry at the end. -/
def cfgSet (m : Config) (k : String) (v : PyValue) : Config :=
  if cfgHasKey m k then m.map (fun p => if p.1 = k then (k, v) else p)
  else m ++ [(k, v)]

/-- Dictionary deletion (`d.pop(k, default)` restricted to its effect on the
dictionary): drop the entry with the given key. -/
def cfgDel (m : Config) (k : String) : Config :=
  m.filter (fun p => p.1 != k)

/-- Dictionary bulk assignment `d.update(entries)`: assign every entry of
`entries` into `m`, in order. -/
def dictUpdate (m : Config) (entries : Config) : Config :=
  entries.foldl (fun acc p => cfgSet acc p.1 p.2) m

/-- Python truthiness (`bool(v)`) for the modelled values; enum members,
callables and plain objects are truthy. -/
def truthy : PyValue → Bool
  | .str s => s != ""
  | .int n => n != 0
  | .bool b => b
  | .qualifier _ => true
  | .strList xs => !xs.isEmpty
  | .pyNone => false
  | .func _ => true
  | .obj _ => true

/-- Characters stripped by Python `str.strip()`. -/
def isPySpace (c : Char) : Bool :=
  c == ' ' || c == '\t' || c == '\n' || c == '\r' ||
    c == Char.ofNat 11 || c == Char.ofNat 12

/-- Python `str.strip()`: remove leading and trailing whitespace. -/
def pyStrip (s : String) : String :=
  String.mk (((s.data.dropWhile isPySpace).reverse.dropWhile isPySpace).reverse)

/-- Helper for `pySplitlines`: accumulate the current line (reversed) while
scanning; a trailing line terminator does not produce a final empty line. -/
def pySplitlinesAux : List Char → List Char → List String
  | [], acc => if acc.isEmpty then [] else [String.mk acc.reverse]
  | '\r' :: '\n' :: rest, acc => String.mk acc.reverse :: pySplitlinesAux rest []
  | '\r' :: rest, acc => String.mk acc.reverse :: pySplitlinesAux rest []
  | '\n' :: rest, acc => String.mk acc.reverse :: pySplitlinesAux rest []
  | c :: rest, acc => pySplitlinesAux rest (c :: acc)

/-- Python `str.splitlines()` over the line boundaries `\n`, `\r`, `\r\n`
(the boundaries that occur in the repository's help texts). -/
def pySplitlines (s : String) : List String :=
  pySplitlinesAux s.data []

/-- Python type-name reflection used by `Argument.serialize`:
`python_type.__name__` when the value exposes a `__name__` (callables), else
`type(python_type).__name__`. -/
def pyTypeName : PyValue → String
  | .func n => n
  | .obj cls => cls
  | .str _ => "str"
  | .int _ => "int"
  | .bool _ => "bool"
  | .strList _ => "list"
  | .qualifier _ => "Qualifiers"
  | .pyNone => "NoneType"

/-- Rewrite of a single configuration value by `map_qualifiers`: a
`Qualifiers` member is looked up in the target map (`none` models the
`KeyError` for a missing entry), any other value passes through unchanged. -/
def map_qualifier_value (qualifier_map : Qualifiers → Option PyValue) :
    PyValue → Option PyValue
  | .qualifier q => qualifier_map q
  | v => some v

/-- The `map_qualifiers` function of `options.py`: the dict comprehension
rewriting every `Qualifiers` value through the supplied target map and keeping
every other entry unchanged; a qualifier missing from the target map raises
`KeyError`, modelled as `none`. -/
def map_qualifiers (configuration : Config)
    (qualifier_map : Qualifiers → Option PyValue) : Option Config :=
  match configuration with
  | [] => some []
  | (key, value) :: rest =>
    match map_qualifier_value qualifier_map value, map_qualifiers rest qualifier_map with
    | some w, some out => some ((key, w) :: out)
    | _, _ => none

/-- The `PARSER_SPEC_VERSION` constant. -/
def PARSER_SPEC_VERSION : String := "1.0.0"

/-- The `JSON_DIRECT_MIRROR_OPTIONS` allow-list of configuration keys copied
verbatim into the schema. -/
def JSON_DIRECT_MIRROR_OPTIONS : List String := ["choices", "metavar"]

/-- The `JSON_QUALIFIER_TO_OPTIONS` table: expansion of each `Qualifiers`
member into schema fields. -/
def JSON_QUALIFIER_TO_OPTIONS : Qualifiers → Config
  | .OPTIONAL => [("is_optional", PyValue.bool true)]
  | .ZERO_OR_MORE => [("is_optional", PyValue.bool true), ("is_variadic", PyValue.bool true)]
  | .SUPPRESS => []

/-- The `Argument` named tuple: invocation aliases plus a configuration bag. -/
structure Argument where
  aliases : List String
  configuration : Config
deriving DecidableEq, Repr

/-- Modelled from the spec: the Lazy Choice Resolver (`LazyChoices` of
`httpie/cli/utils.py`, which is not under `src/`). Per §4.2 it exposes
`load()`, producing a finite ordered sequence of legal values, and a `help`
string describing the set. -/
structure LazyChoicesData where
  values : List String
  helpText : String
deriving DecidableEq, Repr

/-- Modelled from the spec: the Lazy Choice Resolver as a deterministic
function of the `(aliases, configuration)` pair it is constructed from
(§4.2: same result every call within a process). -/
abbrev Resolver := List String → Config → LazyChoicesData

/-- The first block of `Argument.serialize`: pop `action` from the copied
configuration and, when it equals `'lazy_choices'`, overwrite `choices` with
the resolver's loaded values and `help` with the resolver's help string. -/
def Argument.effectiveConfiguration (resolver : Resolver) (self : Argument) : Config :=
  let configuration := cfgDel self.configuration "action"
  if cfgGet self.configuration "action" = some (PyValue.str "lazy_choices") then
    let choices := resolver self.aliases configuration
    cfgSet (cfgSet configuration "choices" (PyValue.strList choices.values))
      "help" (PyValue.str choices.helpText)
  else
    configuration

/-- The `options` / `is_positional` block of `Argument.serialize`: a truthy
alias list becomes `options`; otherwise `options` is `configuration["metavar"]`
(`KeyError`, hence `none`, when absent) and `is_positional` is set. -/
def serializeOptionsPart (aliases : List String) (configuration : Config) : Option Config :=
  if aliases ≠ [] then some [("options", PyValue.strList aliases)]
  else
    match cfgGet configuration "metavar" with
    | some v => some [("options", v), ("is_positional", PyValue.bool true)]
    | none => none

/-- The qualifier block of `Argument.serialize`:
`JSON_QUALIFIER_TO_OPTIONS[configuration.get('nargs', Qualifiers.SUPPRESS)]`;
a `nargs` value that is not a `Qualifiers` member raises `KeyError` (`none`). -/
def serializeQualifiersPart (configuration : Config) : Option Config :=
  match (cfgGet configuration "nargs").getD (PyValue.qualifier Qualifiers.SUPPRESS) with
  | .qualifier q => some (JSON_QUALIFIER_TO_OPTIONS q)
  | _ => none

/-- The help block of `Argument.serialize`: when `configuration.get('help')`
is truthy and is not `Qualifiers.SUPPRESS`, set `description` to the first
line of the stripped help text; a non-string help there fails (`AttributeError`)
and a whitespace-only string fails (`IndexError` on the empty line list). -/
def serializeHelpValue (h : PyValue) (result : Config) : Option Config :=
  match h with
  | .str s =>
    match pySplitlines (pyStrip s) with
    | line :: _ => some (dictUpdate result [("description", PyValue.str line)])
    | [] => none
  | _ => none

/-- The help block of `Argument.serialize`: when `configuration.get('help')`
is truthy and is not `Qualifiers.SUPPRESS`, set `description` via
`serializeHelpValue` (the first line of the stripped help text); otherwise
leave the result unchanged. -/
def serializeHelpPart (configuration : Config) (result : Config) : Option Config :=
  match cfgGet configuration "help" with
  | none => some result
  | some h =>
    if truthy h = true ∧ h ≠ PyValue.qualifier Qualifiers.SUPPRESS then
      serializeHelpValue h result
    else some result

/-- The type block of `Argument.serialize`: when `configuration.get('type')`
is not `None`, record the reflected type name as `python_type_name`. -/
def serializeTypePart (configuration : Config) (result : Config) : Config :=
  match cfgGet configuration "type" with
  | none => result
  | some .pyNone => result
  | some v => dictUpdate result [("python_type_name", PyValue.str (pyTypeName v))]

/-- `Argument.serialize` of `options.py`: build the schema mapping for one
argument; the final step mirrors the `JSON_DIRECT_MIRROR_OPTIONS` keys of the
configuration verbatim into the result. -/
def Argument.serialize (resolver : Resolver) (self : Argument) : Option Config :=
  let configuration := Argument.effectiveConfiguration resolver self
  match serializeOptionsPart self.aliases configuration with
  | none => none
  | some base =>
    match serializeQualifiersPart configuration with
    | none => none
    | some quals =>
      match serializeHelpPart configuration (dictUpdate base quals) with
      | none => none
      | some r2 =>
        some (dictUpdate (serializeTypePart configuration r2)
          (configuration.filter (fun p => JSON_DIRECT_MIRROR_OPTIONS.contains p.1)))

/-- The `Group` dataclass: a named, described, optionally mutually-exclusive
ordered collection of arguments. -/
structure Group where
  name : String
  description : String
  is_mutually_exclusive : Bool
  arguments : List Argument
deriving DecidableEq, Repr

/-- `Group.add_argument`: append a freshly built `Argument`. -/
def Group.add_argument (self : Group) (aliases : List String) (configuration : Config) : Group :=
  Group.mk self.name self.description self.is_mutually_exclusive
    (self.arguments ++ [Argument.mk aliases configuration])

/-- The `ParserSpec` dataclass: program metadata plus the ordered groups. -/
structure ParserSpec where
  program : String
  description : String
  epilog : String
  groups : List Group
deriving DecidableEq, Repr

/-- `ParserSpec.new_group`: append a freshly built empty `Group`. -/
def ParserSpec.new_group (self : ParserSpec) (name : String) (description : String)
    (is_mutually_exclusive : Bool) : ParserSpec :=
  ParserSpec.mk self.program self.description self.epilog
    (self.groups ++ [Group.mk name description is_mutually_exclusive []])

/-- Effectful list traversal over `Option`, modelling a Python list
comprehension in which each element's computation may raise. -/
def mapMOption {α β : Type} (f : α → Option β) : List α → Option (List β)
  | [] => some []
  | a :: rest =>
    match f a, mapMOption f rest with
    | some b, some bs => some (b :: bs)
    | _, _ => none

/-- The serialized form of one `Group` (`Group.serialize`): the fixed-key
dictionary `name` / `description` / `is_mutually_exclusive` / `args`. -/
structure GroupDoc where
  name : String
  description : String
  is_mutually_exclusive : Bool
  args : List Config
deriving DecidableEq, Repr

/-- `Group.serialize` of `options.py`: serialize every argument in order. -/
def Group.serialize (resolver : Resolver) (self : Group) : Option GroupDoc :=
  (mapMOption (Argument.serialize resolver) self.arguments).map
    (fun args => GroupDoc.mk self.name self.description self.is_mutually_exclusive args)

/-- The serialized form of a `ParserSpec` (`ParserSpec.serialize`): the
fixed-key dictionary `name` / `description` / `groups`. -/
structure SpecDoc where
  name : String
  description : String
  groups : List GroupDoc
deriving DecidableEq, Repr

/-- `ParserSpec.serialize` of `options.py`: serialize every group in order. -/
def ParserSpec.serialize (resolver : Resolver) (self : ParserSpec) : Option SpecDoc :=
  (mapMOption (Group.serialize resolver) self.groups).map
    (fun gs => SpecDoc.mk self.program self.description gs)

/-- The versioned schema document produced by `to_json`. -/
structure JsonDoc where
  version : String
  spec : SpecDoc
deriving DecidableEq, Repr

/-- `to_json` of `options.py`: wrap the serialized spec with the version. -/
def to_json (resolver : Resolver) (abstract_options : ParserSpec) : Option JsonDoc :=
  (abstract_options.serialize resolver).map (fun s => JsonDoc.mk PARSER_SPEC_VERSION s)

/-- The `ARGPARSE_QUALIFIER_MAP` table: each `Qualifiers` member mapped to the
corresponding `argparse` sentinel (`argparse.OPTIONAL`, `argparse.SUPPRESS`,
`argparse.ZERO_OR_MORE`); every member has an entry. -/
def ARGPARSE_QUALIFIER_MAP : Qualifiers → Option PyValue
  | .OPTIONAL => some (PyValue.str "?")
  | .SUPPRESS => some (PyValue.str "==SUPPRESS==")
  | .ZERO_OR_MORE => some (PyValue.str "*")

/-- Modelled from the spec: the construction-time failure taxonomy of §7
(`SpecificationError`): duplicate aliases within a parser, and a qualifier
value absent from a compiler's target mapping. -/
inductive SpecificationError where
  | duplicateAlias
  | unmappedQualifier
deriving DecidableEq, Repr

/-- One argument as registered on the concrete parser: its aliases and its
configuration after routing qualifiers through `ARGPARSE_QUALIFIER_MAP`. -/
structure ConcreteArgument where
  aliases : List String
  configuration : Config
deriving DecidableEq, Repr

/-- One argument group of the concrete parser built by `to_argparse`:
`isExclusive` records whether the group's arguments were placed in a nested
mutually-exclusive construct, and `exclusiveRequired` records the `required`
flag that construct was created with. -/
structure ConcreteGroup where
  title : String
  description : String
  isExclusive : Bool
  exclusiveRequired : Bool
  arguments : List ConcreteArgument
deriving DecidableEq, Repr

/-- The concrete parser object produced by `to_argparse`. -/
structure ConcreteParser where
  prog : String
  description : String
  epilog : String
  groups : List ConcreteGroup
deriving DecidableEq, Repr

/-- Modelled from the spec: `add_argument` of the consumed parser-construction
library (`argparse` via `HTTPieArgumentParser`, not under `src/`). Per §4.3
and §7, registering an argument whose alias collides with an already
registered alias is a construction-time error; otherwise the argument is
registered with its qualifier-mapped configuration and its aliases join the
registered set. -/
def registerArgument (registered : List String) (arg : Argument) :
    Except SpecificationError (List String × ConcreteArgument) :=
  if arg.aliases.any (fun a => registered.contains a) then
    Except.error SpecificationError.duplicateAlias
  else
    match map_qualifiers arg.configuration ARGPARSE_QUALIFIER_MAP with
    | some cfg => Except.ok (registered ++ arg.aliases, ConcreteArgument.mk arg.aliases cfg)
    | none => Except.error SpecificationError.unmappedQualifier

/-- Register the arguments of one group in declaration order, threading the
set of already-registered aliases. -/
def addArguments (registered : List String) :
    List Argument → Except SpecificationError (List String × List ConcreteArgument)
  | [] => Except.ok (registered, [])
  | a :: rest =>
    match registerArgument registered a with
    | Except.error e => Except.error e
    | Except.ok (r1, c) =>
      match addArguments r1 rest with
      | Except.error e => Except.error e
      | Except.ok (r2, cs) => Except.ok (r2, c :: cs)

/-- Process the groups in declaration order: each abstract group becomes a
titled, described concrete group; a mutually-exclusive group's arguments go
into a nested mutual-exclusion construct created with `required = False`. -/
def addGroups (registered : List String) :
    List Group → Except SpecificationError (List String × List ConcreteGroup)
  | [] => Except.ok (registered, [])
  | g :: rest =>
    match addArguments registered g.arguments with
    | Except.error e => Except.error e
    | Except.ok (r1, cargs) =>
      match addGroups r1 rest with
      | Except.error e => Except.error e
      | Except.ok (r2, cgs) =>
        Except.ok (r2,
          ConcreteGroup.mk g.name g.description g.is_mutually_exclusive false cargs :: cgs)

/-- `to_argparse` of `options.py`: instantiate the concrete parser with the
program metadata and register every group and argument in declaration order;
construction-time errors abort before any parser is returned. -/
def to_argparse (abstract_options : ParserSpec) :
    Except SpecificationError ConcreteParser :=
  match addGroups [] abstract_options.groups with
  | Except.error e => Except.error e
  | Except.ok (_, gs) =>
    Except.ok (ConcreteParser.mk abstract_options.program abstract_options.description
      abstract_options.epilog gs)

/-- Whether the compilation to a concrete parser failed with a
`SpecificationError`. -/
def isSpecError : Except SpecificationError ConcreteParser → Bool
  | Except.error _ => true
  | Except.ok _ => false

/-- How many of the group's arguments are supplied by an invocation, where an
invocation is the list of flags it uses. -/
def ConcreteGroup.suppliedCount (g : ConcreteGroup) (supplied : List String) : Nat :=
  g.arguments.countP (fun a => a.aliases.any (fun al => supplied.contains al))

/-- Modelled from the spec: the mutual-exclusion acceptance rule of the
consumed parser library (§4.3, §8): a mutually-exclusive construct rejects an
invocation supplying more than one of its arguments; when it was created with
`required = true` it additionally demands at least one, and with
`required = false` zero is allowed. Non-exclusive groups impose nothing. -/
def ConcreteGroup.acceptsSupplied (g : ConcreteGroup) (supplied : List String) : Bool :=
  if g.isExclusive then
    decide (g.suppliedCount supplied ≤ 1) &&
      (!g.exclusiveRequired || decide (1 ≤ g.suppliedCount supplied))
  else true

/-- Modelled from the spec: an invocation passes the parser's
mutual-exclusion checks when every group accepts it. -/
def ConcreteParser.acceptsSupplied (p : ConcreteParser) (supplied : List String) : Bool :=
  p.groups.all (fun g => g.acceptsSupplied supplied)

/-- A resolver producing nothing, for arguments that do not use
`lazy_choices`. -/
def emptyResolver : Resolver := fun _ _ => LazyChoicesData.mk [] ""

/-- A sample resolver with two values and a two-line help string. -/
def demoResolver : Resolver :=
  fun _ _ => LazyChoicesData.mk ["plugin-a", "plugin-b"] "Available plugins.\nLong text."

/-- A sample specification with a mutually-exclusive group of two flags and a
second plain group, used to instantiate the universally quantified theorems. -/
def demoSpec : ParserSpec :=
  ParserSpec.mk "http" "demo description" "demo epilog"
    [Group.mk "Download" "" true
      [Argument.mk ["--download"] [], Argument.mk ["--output"] []],
     Group.mk "Positional" "" false
      [Argument.mk [] [("metavar", PyValue.str "URL")]]]

/-- A sample specification in which two arguments in different groups share
the alias `--verify`. -/
def dupAliasSpec : ParserSpec :=
  ParserSpec.mk "http" "" ""
    [Group.mk "SSL" "" false [Argument.mk ["--verify"] []],
     Group.mk "Other" "" false [Argument.mk ["--verify", "-V"] []]]

/-- Entries of a configuration bound to a null (`None`) value; the absence of
such entries at `choices` / `metavar` is the precondition of the amended
no-null-field invariant. -/
def NoNull (m : Config) : Prop :=
  ∀ k v, (k, v) ∈ m → v ≠ PyValue.pyNone

theorem memOfGetElem {α : Type _} {l : List α} {i : Nat} {a : α} (h : l[i]? = some a) : a ∈ l := by
  induction l generalizing i with
  | nil => simp at h
  | cons c rest ih =>
    cases i with
    | zero => simp at h; simp [h]
    | succ n => simp at h; exact List.mem_cons_of_mem _ (ih h)

theorem getElemOfMem {α : Type _} {l : List α} {a : α} (h : a ∈ l) : ∃ i : Nat, l[i]? = some a := by
  induction l with
  | nil => simp at h
  | cons c rest ih =>
    rcases List.mem_cons.mp h with h | h
    · exact ⟨0, by simp [h]⟩
    · obtain ⟨i, hi⟩ := ih h
      exact ⟨i + 1, by simpa using hi⟩

theorem cfgGet_mem {m : Config} {k : String} {v : PyValue} (h : cfgGet m k = some v) :
    (k, v) ∈ m := by
  induction m with
  | nil => simp [cfgGet] at h
  | cons p rest ih =>
    obtain ⟨k1, v1⟩ := p
    by_cases hk : k1 = k
    · simp only [cfgGet, if_pos hk] at h
      cases h
      subst hk
      exact List.mem_cons_self _ _
    · simp only [cfgGet, if_neg hk] at h
      exact List.mem_cons_of_mem _ (ih h)

theorem cfgHasKey_of_mem {m : Config} {k : String} {v : PyValue} (h : (k, v) ∈ m) :
    cfgHasKey m k = true := by
  unfold cfgHasKey
  exact List.any_eq_true.mpr ⟨(k, v), h, by simp⟩

theorem cfgGet_none_of_hasKey_false {m : Config} {k : String} (h : cfgHasKey m k = false) :
    cfgGet m k = none := by
  induction m with
  | nil => rfl
  | cons p rest ih =>
    obtain ⟨k1, v1⟩ := p
    simp only [cfgHasKey, List.any_cons, Bool.or_eq_false_iff] at h
    have hk : k1 ≠ k := by simpa using h.1
    simp only [cfgGet, if_neg hk]
    exact ih (by simpa [cfgHasKey] using h.2)

theorem cfgGet_append_of_none {m l : Config} {k : String} (h : cfgGet m k = none) :
    cfgGet (m ++ l) k = cfgGet l k := by
  induction m with
  | nil => rfl
  | cons p rest ih =>
    obtain ⟨k1, v1⟩ := p
    by_cases hk : k1 = k
    · simp [cfgGet, hk] at h
    · simp only [cfgGet, if_neg hk] at h ⊢
      exact ih h

theorem cfgGet_map_overwrite {m : Config} {k : String} {v : PyValue}
    (h : cfgHasKey m k = true) :
    cfgGet (m.map (fun p => if p.1 = k then (k, v) else p)) k = some v := by
  induction m with
  | nil => simp [cfgHasKey] at h
  | cons p rest ih =>
    obtain ⟨k1, v1⟩ := p
    by_cases hk : k1 = k
    · simp [cfgGet, hk]
    · simp only [cfgHasKey, List.any_cons] at h
      have h' : cfgHasKey rest k = true := by
        rcases Bool.or_eq_true_iff.mp h with h1 | h1
        · exact absurd (by simpa using h1) hk
        · simpa [cfgHasKey] using h1
      simpa [cfgGet, hk] using ih h'

theorem cfgGet_map_overwrite_other {m : Config} {k k' : String} {v : PyValue} (hne : k' ≠ k) :
    cfgGet (m.map (fun p => if p.1 = k then (k, v) else p)) k' = cfgGet m k' := by
  induction m with
  | nil => rfl
  | cons p rest ih =>
    obtain ⟨k1, v1⟩ := p
    by_cases hk : k1 = k
    · subst hk
      have hkk' : ¬ (k1 = k') := fun hh => hne hh.symm
      simpa [cfgGet, hkk'] using ih
    · by_cases hk' : k1 = k'
      · simp only [List.map_cons, if_neg hk, cfgGet, if_pos hk']
      · simp only [List.map_cons, if_neg hk, cfgGet, if_neg hk']
        exact ih

theorem cfgGet_append_single_other {m : Config} {k k' : String} {v : PyValue} (hne : k' ≠ k) :
    cfgGet (m ++ [(k, v)]) k' = cfgGet m k' := by
  induction m with
  | nil =>
    have hkk' : ¬ (k = k') := fun hh => hne hh.symm
    simp [cfgGet, hkk']
  | cons p rest ih =>
    obtain ⟨k1, v1⟩ := p
    by_cases hk' : k1 = k'
    · simp only [List.cons_append, cfgGet, if_pos hk']
    · simp only [List.cons_append, cfgGet, if_neg hk']
      exact ih

theorem cfgGet_cfgSet_self (m : Config) (k : String) (v : PyValue) :
    cfgGet (cfgSet m k v) k = some v := by
  unfold cfgSet
  cases h : cfgHasKey m k with
  | true =>
    simp only [if_true]
    exact cfgGet_map_overwrite h
  | false =>
    simp only [Bool.false_eq_true, if_false]
    rw [cfgGet_append_of_none (cfgGet_none_of_hasKey_false h)]
    simp [cfgGet]

theorem cfgGet_cfgSet_other {m : Config} {k k' : String} {v : PyValue} (hne : k' ≠ k) :
    cfgGet (cfgSet m k v) k' = cfgGet m k' := by
  unfold cfgSet
  cases h : cfgHasKey m k with
  | true =>
    simp only [if_true]
    exact cfgGet_map_overwrite_other hne
  | false =>
    simp only [Bool.false_eq_true, if_false]
    exact cfgGet_append_single_other hne

theorem mem_cfgSet {m : Config} {k a : String} {v b : PyValue}
    (h : (a, b) ∈ cfgSet m k v) : ((a, b) ∈ m ∧ a ≠ k) ∨ ((a, b) = (k, v)) := by
  unfold cfgSet at h
  cases hh : cfgHasKey m k with
  | true =>
    rw [hh, if_pos rfl] at h
    obtain ⟨p, hp, hpe⟩ := List.mem_map.mp h
    obtain ⟨k1, v1⟩ := p
    by_cases hk : k1 = k
    · right
      simpa [hk] using hpe.symm
    · left
      simp only [if_neg hk] at hpe
      cases hpe
      exact ⟨hp, hk⟩
  | false =>
    rw [hh] at h
    simp only [Bool.false_eq_true, if_false] at h
    rcases List.mem_append.mp h with h1 | h1
    · left
      refine ⟨h1, fun hak => ?_⟩
      subst hak
      rw [cfgHasKey_of_mem h1] at hh
      cases hh
    · right
      simpa using h1

theorem mem_cfgSet_self (m : Config) (k : String) (v : PyValue) : (k, v) ∈ cfgSet m k v := by
  unfold cfgSet
  cases h : cfgHasKey m k with
  | true =>
    simp only [if_true]
    obtain ⟨p, hp, hpk⟩ := List.any_eq_true.mp h
    refine List.mem_map.mpr ⟨p, hp, ?_⟩
    simp [show p.1 = k by simpa using hpk]
  | false =>
    simp

theorem mem_cfgSet_of_ne {m : Config} {k a : String} {v b : PyValue}
    (h : (a, b) ∈ m) (hne : a ≠ k) : (a, b) ∈ cfgSet m k v := by
  unfold cfgSet
  cases hh : cfgHasKey m k with
  | true =>
    simp only [if_true]
    exact List.mem_map.mpr ⟨(a, b), h, by simp [hne]⟩
  | false =>
    simp only [Bool.false_eq_true, if_false]
    exact List.mem_append_left _ h

theorem cfgSet_value_eq {m : Config} {k : String} {v b : PyValue}
    (h : (k, b) ∈ cfgSet m k v) : b = v := by
  rcases mem_cfgSet h with ⟨_, hne⟩ | he
  · exact absurd rfl hne
  · exact congrArg Prod.snd he

theorem dictUpdate_nil (m : Config) : dictUpdate m [] = m := rfl

theorem dictUpdate_cons (m : Config) (e : String × PyValue) (rest : Config) :
    dictUpdate m (e :: rest) = dictUpdate (cfgSet m e.1 e.2) rest := rfl

theorem cfgGet_dictUpdate_of_notKey {entries : Config} {k : String}
    (h : ∀ p ∈ entries, p.1 ≠ k) (m : Config) :
    cfgGet (dictUpdate m entries) k = cfgGet m k := by
  induction entries generalizing m with
  | nil => rfl
  | cons e rest ih =>
    rw [dictUpdate_cons, ih (fun p hp => h p (List.mem_cons_of_mem _ hp))]
    exact cfgGet_cfgSet_other (Ne.symm (h e (List.mem_cons_self _ _)))

theorem cfgGet_dictUpdate_const {entries : Config} {k : String} {w : PyValue}
    (hex : ∃ v', (k, v') ∈ entries) (hall : ∀ v', (k, v') ∈ entries → v' = w) (m : Config) :
    cfgGet (dictUpdate m entries) k = some w := by
  induction entries generalizing m with
  | nil => exact absurd hex (by simp)
  | cons e rest ih =>
    obtain ⟨ke, ve⟩ := e
    by_cases hke : ke = k
    · subst hke
      have hv : ve = w := hall ve (List.mem_cons_self _ _)
      subst hv
      by_cases hr : ∃ v', (ke, v') ∈ rest
      · exact ih hr (fun v' hv' => hall v' (List.mem_cons_of_mem _ hv')) _
      · have hnone : ∀ p ∈ rest, p.1 ≠ ke := by
          intro p hp hpk
          exact hr ⟨p.2, by rw [← hpk]; exact hp⟩
        rw [dictUpdate_cons, cfgGet_dictUpdate_of_notKey hnone]
        exact cfgGet_cfgSet_self m ke ve
    · have hex' : ∃ v', (k, v') ∈ rest := by
        obtain ⟨v', hv'⟩ := hex
        rcases List.mem_cons.mp hv' with he | he
        · exact absurd (congrArg Prod.fst he).symm hke
        · exact ⟨v', he⟩
      exact ih hex' (fun v' hv' => hall v' (List.mem_cons_of_mem _ hv')) _

theorem mem_dictUpdate {entries : Config} {m : Config} {a : String} {b : PyValue}
    (h : (a, b) ∈ dictUpdate m entries) : (a, b) ∈ m ∨ (a, b) ∈ entries := by
  induction entries generalizing m with
  | nil => exact Or.inl h
  | cons e rest ih =>
    rw [dictUpdate_cons] at h
    rcases ih h with h1 | h1
    · rcases mem_cfgSet h1 with ⟨h2, _⟩ | h2
      · exact Or.inl h2
      · exact Or.inr (by simp [h2])
    · exact Or.inr (List.mem_cons_of_mem _ h1)

theorem noNull_dictUpdate {m entries : Config} (hm : NoNull m)
    (he : ∀ p ∈ entries, p.2 ≠ PyValue.pyNone) : NoNull (dictUpdate m entries) := by
  intro k v hv
  rcases mem_dictUpdate hv with h | h
  · exact hm k v h
  · exact he (k, v) h

theorem cfgGet_not_null {m : Config} (hm : NoNull m) (k : String) :
    cfgGet m k ≠ some PyValue.pyNone := by
  intro h
  exact hm k _ (cfgGet_mem h) rfl

theorem cfgGet_cfgDel_other {m : Config} {k0 k : String} (hne : k ≠ k0) :
    cfgGet (cfgDel m k0) k = cfgGet m k := by
  induction m with
  | nil => rfl
  | cons p rest ih =>
    obtain ⟨k1, v1⟩ := p
    by_cases hk0 : k1 = k0
    · have hk1 : ¬ (k1 = k) := by rw [hk0]; exact fun hh => hne hh.symm
      simp only [cfgDel, List.filter_cons] at ih ⊢
      simp only [show ((k1, v1).1 != k0) = false by simp [hk0], Bool.false_eq_true, if_false]
      rw [ih]
      simp [cfgGet, hk1]
    · simp only [cfgDel, List.filter_cons] at ih ⊢
      simp only [show ((k1, v1).1 != k0) = true by simp [hk0], if_true]
      by_cases hk1 : k1 = k
      · simp [cfgGet, hk1]
      · simp only [cfgGet, if_neg hk1]
        exact ih

theorem mem_cfgDel {m : Config} {k0 : String} {p : String × PyValue}
    (h : p ∈ cfgDel m k0) : p ∈ m :=
  (List.mem_filter.mp h).1

theorem cfgGet_effectiveConfiguration_other {resolver : Resolver} {a : Argument} {k : String}
    (h1 : k ≠ "action") (h2 : k ≠ "choices") (h3 : k ≠ "help") :
    cfgGet (Argument.effectiveConfiguration resolver a) k = cfgGet a.configuration k := by
  unfold Argument.effectiveConfiguration
  by_cases hl : cfgGet a.configuration "action" = some (PyValue.str "lazy_choices")
  · rw [if_pos hl, cfgGet_cfgSet_other h3, cfgGet_cfgSet_other h2]
    exact cfgGet_cfgDel_other h1
  · rw [if_neg hl]
    exact cfgGet_cfgDel_other h1

theorem mem_effectiveConfiguration {resolver : Resolver} {a : Argument} {k : String} {v : PyValue}
    (h : (k, v) ∈ Argument.effectiveConfiguration resolver a) :
    (k, v) ∈ a.configuration ∨
      (k, v) = ("choices",
        PyValue.strList (resolver a.aliases (cfgDel a.configuration "action")).values) ∨
      (k, v) = ("help",
        PyValue.str (resolver a.aliases (cfgDel a.configuration "action")).helpText) := by
  unfold Argument.effectiveConfiguration at h
  by_cases hl : cfgGet a.configuration "action" = some (PyValue.str "lazy_choices")
  · rw [if_pos hl] at h
    rcases mem_cfgSet h with ⟨h1, _⟩ | he
    · rcases mem_cfgSet h1 with ⟨h2, _⟩ | he2
      · exact Or.inl (mem_cfgDel h2)
      · exact Or.inr (Or.inl he2)
    · exact Or.inr (Or.inr he)
  · rw [if_neg hl] at h
    exact Or.inl (mem_cfgDel h)

theorem choices_value_of_lazy {resolver : Resolver} {a : Argument} {v : PyValue}
    (hl : cfgGet a.configuration "action" = some (PyValue.str "lazy_choices"))
    (h : ("choices", v) ∈ Argument.effectiveConfiguration resolver a) :
    v = PyValue.strList (resolver a.aliases (cfgDel a.configuration "action")).values := by
  unfold Argument.effectiveConfiguration at h
  rw [if_pos hl] at h
  rcases mem_cfgSet h with ⟨h1, _⟩ | he
  · exact cfgSet_value_eq h1
  · have h2 := congrArg Prod.fst he
    simp at h2

theorem choices_mem_of_lazy (resolver : Resolver) (a : Argument)
    (hl : cfgGet a.configuration "action" = some (PyValue.str "lazy_choices")) :
    ("choices", PyValue.strList (resolver a.aliases (cfgDel a.configuration "action")).values) ∈
      Argument.effectiveConfiguration resolver a := by
  unfold Argument.effectiveConfiguration
  rw [if_pos hl]
  exact mem_cfgSet_of_ne (mem_cfgSet_self _ _ _) (by decide)

theorem help_get_of_lazy {resolver : Resolver} {a : Argument}
    (hl : cfgGet a.configuration "action" = some (PyValue.str "lazy_choices")) :
    cfgGet (Argument.effectiveConfiguration resolver a) "help" =
      some (PyValue.str (resolver a.aliases (cfgDel a.configuration "action")).helpText) := by
  unfold Argument.effectiveConfiguration
  rw [if_pos hl]
  exact cfgGet_cfgSet_self _ _ _

theorem serializeOptionsPart_get {al : List String} {c base : Config}
    (h : serializeOptionsPart al c = some base) :
    ∀ k, k ≠ "options" → k ≠ "is_positional" → cfgGet base k = none := by
  unfold serializeOptionsPart at h
  by_cases hal : al ≠ []
  · rw [if_pos hal] at h
    cases h
    intro k h1 h2
    have ho : ¬ ("options" = k) := fun hh => h1 hh.symm
    simp [cfgGet, ho]
  · rw [if_neg hal] at h
    cases hmv : cfgGet c "metavar" with
    | none => rw [hmv] at h; cases h
    | some v =>
      rw [hmv] at h
      cases h
      intro k h1 h2
      have ho : ¬ ("options" = k) := fun hh => h1 hh.symm
      have hp : ¬ ("is_positional" = k) := fun hh => h2 hh.symm
      simp [cfgGet, ho, hp]

theorem serializeQualifiersPart_eq {c quals : Config} (h : serializeQualifiersPart c = some quals) :
    (cfgGet c "nargs" = none ∧ quals = []) ∨
      (∃ q, cfgGet c "nargs" = some (PyValue.qualifier q) ∧
        quals = JSON_QUALIFIER_TO_OPTIONS q) := by
  unfold serializeQualifiersPart at h
  cases hn : cfgGet c "nargs" with
  | none =>
    rw [hn] at h
    simp only [Option.getD_none] at h
    cases h
    exact Or.inl ⟨rfl, rfl⟩
  | some v =>
    rw [hn] at h
    simp only [Option.getD_some] at h
    cases v with
    | qualifier q => cases h; exact Or.inr ⟨q, rfl, rfl⟩
    | str s => cases h
    | int n => cases h
    | bool b => cases h
    | strList xs => cases h
    | pyNone => cases h
    | func n => cases h
    | obj n => cases h

theorem serializeQualifiersPart_none {c : Config} {v : PyValue}
    (h : cfgGet c "nargs" = some v) (hv : ∀ q, v ≠ PyValue.qualifier q) :
    serializeQualifiersPart c = none := by
  unfold serializeQualifiersPart
  rw [h]
  cases v with
  | qualifier q => exact absurd rfl (hv q)
  | str s => rfl
  | int n => rfl
  | bool b => rfl
  | strList xs => rfl
  | pyNone => rfl
  | func n => rfl
  | obj n => rfl

theorem quals_key_mem {q : Qualifiers} {p : String × PyValue}
    (h : p ∈ JSON_QUALIFIER_TO_OPTIONS q) : p.1 = "is_optional" ∨ p.1 = "is_variadic" := by
  cases q with
  | OPTIONAL =>
    simp only [JSON_QUALIFIER_TO_OPTIONS, List.mem_singleton] at h
    subst h
    exact Or.inl rfl
  | ZERO_OR_MORE =>
    rcases List.mem_cons.mp h with h1 | h1
    · subst h1; exact Or.inl rfl
    · simp only [List.mem_singleton] at h1; subst h1; exact Or.inr rfl
  | SUPPRESS => simp [JSON_QUALIFIER_TO_OPTIONS] at h

theorem quals_value_not_null {q : Qualifiers} {p : String × PyValue}
    (h : p ∈ JSON_QUALIFIER_TO_OPTIONS q) : p.2 ≠ PyValue.pyNone := by
  cases q with
  | OPTIONAL => simp only [JSON_QUALIFIER_TO_OPTIONS, List.mem_singleton] at h; subst h; simp
  | ZERO_OR_MORE =>
    rcases List.mem_cons.mp h with h1 | h1
    · subst h1; simp
    · simp only [List.mem_singleton] at h1; subst h1; simp
  | SUPPRESS => simp [JSON_QUALIFIER_TO_OPTIONS] at h

theorem serializeHelpPart_other {c r r' : Config} (h : serializeHelpPart c r = some r') :
    ∀ k, k ≠ "description" → cfgGet r' k = cfgGet r k := by
  unfold serializeHelpPart at h
  cases hh : cfgGet c "help" with
  | none => rw [hh] at h; cases h; intro k _; rfl
  | some hv =>
    rw [hh] at h
    have h' : (if truthy hv = true ∧ hv ≠ PyValue.qualifier Qualifiers.SUPPRESS then
        serializeHelpValue hv r else some r) = some r' := h
    by_cases hcond : truthy hv = true ∧ hv ≠ PyValue.qualifier Qualifiers.SUPPRESS
    · rw [if_pos hcond] at h'
      cases hv with
      | str s =>
        have hm : (match pySplitlines (pyStrip s) with
          | line :: _ => some (dictUpdate r [("description", PyValue.str line)])
          | [] => none) = some r' := h'
        cases hsl : pySplitlines (pyStrip s) with
        | nil => rw [hsl] at hm; cases hm
        | cons line rest2 =>
          rw [hsl] at hm
          cases hm
          intro k hk
          exact cfgGet_cfgSet_other hk
      | int n => cases h'
      | bool b => cases h'
      | qualifier q => cases h'
      | strList xs => cases h'
      | pyNone => cases h'
      | func n => cases h'
      | obj n => cases h'
    · rw [if_neg hcond] at h'
      cases h'
      intro k _
      rfl

theorem serializeHelpPart_description {c r r' : Config} (h : serializeHelpPart c r = some r')
    (hr : cfgGet r "description" = none) :
    cfgGet r' "description" =
      (match cfgGet c "help" with
       | some (PyValue.str s) => ((pySplitlines (pyStrip s)).head?).map PyValue.str
       | _ => none) := by
  unfold serializeHelpPart at h
  cases hh : cfgGet c "help" with
  | none => rw [hh] at h; cases h; exact hr
  | some hv =>
    rw [hh] at h
    have h' : (if truthy hv = true ∧ hv ≠ PyValue.qualifier Qualifiers.SUPPRESS then
        serializeHelpValue hv r else some r) = some r' := h
    cases hv with
    | str s =>
      by_cases hcond : truthy (PyValue.str s) = true ∧
          PyValue.str s ≠ PyValue.qualifier Qualifiers.SUPPRESS
      · rw [if_pos hcond] at h'
        have hm : (match pySplitlines (pyStrip s) with
          | line :: _ => some (dictUpdate r [("description", PyValue.str line)])
          | [] => none) = some r' := h'
        cases hsl : pySplitlines (pyStrip s) with
        | nil => rw [hsl] at hm; cases hm
        | cons line rest2 =>
          rw [hsl] at hm
          cases hm
          show cfgGet (dictUpdate r [("description", PyValue.str line)]) "description" =
            ((pySplitlines (pyStrip s)).head?).map PyValue.str
          rw [hsl]
          exact cfgGet_cfgSet_self r "description" (PyValue.str line)
      · rw [if_neg hcond] at h'
        cases h'
        have hs : s = "" := by
          by_contra hns
          exact hcond ⟨by simp [truthy, hns], by simp⟩
        subst hs
        show cfgGet r "description" = ((pySplitlines (pyStrip "")).head?).map PyValue.str
        rw [hr]
        rfl
    | qualifier q =>
      by_cases hq : q = Qualifiers.SUPPRESS
      · subst hq
        rw [if_neg (fun hc => hc.2 rfl)] at h'
        cases h'
        exact hr
      · rw [if_pos ⟨rfl, fun hc => hq (by cases hc; rfl)⟩] at h'
        cases h'
    | int n =>
      by_cases hn : n = 0
      · subst hn
        rw [if_neg (fun hc => by simp [truthy] at hc)] at h'
        cases h'
        exact hr
      · rw [if_pos ⟨by simp [truthy, hn], by simp⟩] at h'
        cases h'
    | bool b =>
      cases b with
      | false =>
        rw [if_neg (fun hc => by simp [truthy] at hc)] at h'
        cases h'
        exact hr
      | true =>
        rw [if_pos ⟨rfl, by simp⟩] at h'
        cases h'
    | strList xs =>
      cases xs with
      | nil =>
        rw [if_neg (fun hc => by simp [truthy] at hc)] at h'
        cases h'
        exact hr
      | cons x xs2 =>
        rw [if_pos ⟨by simp [truthy], by simp⟩] at h'
        cases h'
    | pyNone =>
      rw [if_neg (fun hc => by simp [truthy] at hc)] at h'
      cases h'
      exact hr
    | func n =>
      rw [if_pos ⟨rfl, by simp⟩] at h'
      cases h'
    | obj n =>
      rw [if_pos ⟨rfl, by simp⟩] at h'
      cases h'

theorem serializeHelpPart_noNull {c r r' : Config} (h : serializeHelpPart c r = some r')
    (hr : NoNull r) : NoNull r' := by
  unfold serializeHelpPart at h
  cases hh : cfgGet c "help" with
  | none => rw [hh] at h; cases h; exact hr
  | some hv =>
    rw [hh] at h
    have h' : (if truthy hv = true ∧ hv ≠ PyValue.qualifier Qualifiers.SUPPRESS then
        serializeHelpValue hv r else some r) = some r' := h
    by_cases hcond : truthy hv = true ∧ hv ≠ PyValue.qualifier Qualifiers.SUPPRESS
    · rw [if_pos hcond] at h'
      cases hv with
      | str s =>
        have hm : (match pySplitlines (pyStrip s) with
          | line :: _ => some (dictUpdate r [("description", PyValue.str line)])
          | [] => none) = some r' := h'
        cases hsl : pySplitlines (pyStrip s) with
        | nil => rw [hsl] at hm; cases hm
        | cons line rest2 =>
          rw [hsl] at hm
          cases hm
          exact noNull_dictUpdate hr (by intro p hp; simp at hp; subst hp; simp)
      | int n => cases h'
      | bool b => cases h'
      | qualifier q => cases h'
      | strList xs => cases h'
      | pyNone => cases h'
      | func n => cases h'
      | obj n => cases h'
    · rw [if_neg hcond] at h'
      cases h'
      exact hr

theorem serializeTypePart_other {c r : Config} {k : String} (hk : k ≠ "python_type_name") :
    cfgGet (serializeTypePart c r) k = cfgGet r k := by
  unfold serializeTypePart
  cases ht : cfgGet c "type" with
  | none => rfl
  | some v =>
    cases v with
    | pyNone => rfl
    | str s => exact cfgGet_cfgSet_other hk
    | int n => exact cfgGet_cfgSet_other hk
    | bool b => exact cfgGet_cfgSet_other hk
    | qualifier q => exact cfgGet_cfgSet_other hk
    | strList xs => exact cfgGet_cfgSet_other hk
    | func n => exact cfgGet_cfgSet_other hk
    | obj n => exact cfgGet_cfgSet_other hk

theorem serializeTypePart_noNull {c r : Config} (hr : NoNull r) : NoNull (serializeTypePart c r) := by
  unfold serializeTypePart
  cases ht : cfgGet c "type" with
  | none => exact hr
  | some v =>
    cases v with
    | pyNone => exact hr
    | str s => exact noNull_dictUpdate hr (by intro p hp; simp at hp; subst hp; simp)
    | int n => exact noNull_dictUpdate hr (by intro p hp; simp at hp; subst hp; simp)
    | bool b => exact noNull_dictUpdate hr (by intro p hp; simp at hp; subst hp; simp)
    | qualifier q => exact noNull_dictUpdate hr (by intro p hp; simp at hp; subst hp; simp)
    | strList xs => exact noNull_dictUpdate hr (by intro p hp; simp at hp; subst hp; simp)
    | func n => exact noNull_dictUpdate hr (by intro p hp; simp at hp; subst hp; simp)
    | obj n => exact noNull_dictUpdate hr (by intro p hp; simp at hp; subst hp; simp)

theorem mirror_filter_keys {c : Config} {p : String × PyValue}
    (hp : p ∈ c.filter (fun p => JSON_DIRECT_MIRROR_OPTIONS.contains p.1)) :
    p ∈ c ∧ (p.1 = "choices" ∨ p.1 = "metavar") := by
  have h1 := List.mem_filter.mp hp
  refine ⟨h1.1, ?_⟩
  have h2 := h1.2
  simp [JSON_DIRECT_MIRROR_OPTIONS] at h2
  exact h2

theorem cfgGet_mirror_other {c : Config} (r : Config) {k : String}
    (h2 : k ≠ "choices") (h3 : k ≠ "metavar") :
    cfgGet (dictUpdate r (c.filter (fun p => JSON_DIRECT_MIRROR_OPTIONS.contains p.1))) k =
      cfgGet r k := by
  apply cfgGet_dictUpdate_of_notKey
  intro p hp
  rcases (mirror_filter_keys hp).2 with hh | hh
  · rw [hh]; exact fun he => h2 he.symm
  · rw [hh]; exact fun he => h3 he.symm

theorem serialize_eq_some {resolver : Resolver} {a : Argument} {r : Config}
    (h : Argument.serialize resolver a = some r) :
    ∃ base quals r2,
      serializeOptionsPart a.aliases (Argument.effectiveConfiguration resolver a) = some base ∧
      serializeQualifiersPart (Argument.effectiveConfiguration resolver a) = some quals ∧
      serializeHelpPart (Argument.effectiveConfiguration resolver a)
        (dictUpdate base quals) = some r2 ∧
      r = dictUpdate (serializeTypePart (Argument.effectiveConfiguration resolver a) r2)
        ((Argument.effectiveConfiguration resolver a).filter
          (fun p => JSON_DIRECT_MIRROR_OPTIONS.contains p.1)) := by
  have h0 : (match serializeOptionsPart a.aliases (Argument.effectiveConfiguration resolver a) with
    | none => none
    | some base =>
      match serializeQualifiersPart (Argument.effectiveConfiguration resolver a) with
      | none => none
      | some quals =>
        match serializeHelpPart (Argument.effectiveConfiguration resolver a)
            (dictUpdate base quals) with
        | none => none
        | some r2 =>
          some (dictUpdate (serializeTypePart (Argument.effectiveConfiguration resolver a) r2)
            ((Argument.effectiveConfiguration resolver a).filter
              (fun p => JSON_DIRECT_MIRROR_OPTIONS.contains p.1)))) = some r := h
  clear h
  cases h1 : serializeOptionsPart a.aliases (Argument.effectiveConfiguration resolver a) with
  | none => rw [h1] at h0; cases h0
  | some base =>
    rw [h1] at h0
    have hb : (match serializeQualifiersPart (Argument.effectiveConfiguration resolver a) with
      | none => none
      | some quals =>
        match serializeHelpPart (Argument.effectiveConfiguration resolver a)
            (dictUpdate base quals) with
        | none => none
        | some r2 =>
          some (dictUpdate (serializeTypePart (Argument.effectiveConfiguration resolver a) r2)
            ((Argument.effectiveConfiguration resolver a).filter
              (fun p => JSON_DIRECT_MIRROR_OPTIONS.contains p.1)))) = some r := h0
    clear h0
    cases h2 : serializeQualifiersPart (Argument.effectiveConfiguration resolver a) with
    | none => rw [h2] at hb; cases hb
    | some quals =>
      rw [h2] at hb
      have hc : (match serializeHelpPart (Argument.effectiveConfiguration resolver a)
          (dictUpdate base quals) with
        | none => none
        | some r2 =>
          some (dictUpdate (serializeTypePart (Argument.effectiveConfiguration resolver a) r2)
            ((Argument.effectiveConfiguration resolver a).filter
              (fun p => JSON_DIRECT_MIRROR_OPTIONS.contains p.1)))) = some r := hb
      clear hb
      cases h3 : serializeHelpPart (Argument.effectiveConfiguration resolver a)
          (dictUpdate base quals) with
      | none => rw [h3] at hc; cases hc
      | some r2 =>
        rw [h3] at hc
        cases hc
        exact ⟨base, quals, r2, rfl, rfl, h3, rfl⟩

theorem serializeOptionsPart_noNull {al : List String} {c base : Config}
    (h : serializeOptionsPart al c = some base)
    (hm : ∀ v, ("metavar", v) ∈ c → v ≠ PyValue.pyNone) : NoNull base := by
  unfold serializeOptionsPart at h
  by_cases hal : al ≠ []
  · rw [if_pos hal] at h
    cases h
    intro k v hv
    simp at hv
    rw [hv.2]
    simp
  · rw [if_neg hal] at h
    cases hmv : cfgGet c "metavar" with
    | none => rw [hmv] at h; cases h
    | some v =>
      rw [hmv] at h
      cases h
      intro k v' hv'
      rcases List.mem_cons.mp hv' with he | he
      · cases he
        exact hm _ (cfgGet_mem hmv)
      · simp at he
        rw [he.2]
        simp

theorem serialize_description_eq {resolver : Resolver} {a : Argument} {r : Config}
    (h : Argument.serialize resolver a = some r) :
    cfgGet r "description" =
      (match cfgGet (Argument.effectiveConfiguration resolver a) "help" with
       | some (PyValue.str s) => ((pySplitlines (pyStrip s)).head?).map PyValue.str
       | _ => none) := by
  obtain ⟨base, quals, r2, h1, h2, h3, hr⟩ := serialize_eq_some h
  subst hr
  rw [cfgGet_mirror_other _ (by decide) (by decide), serializeTypePart_other (by decide)]
  apply serializeHelpPart_description h3
  have hqk : ∀ p ∈ quals, p.1 ≠ "description" := by
    rcases serializeQualifiersPart_eq h2 with ⟨_, hq⟩ | ⟨q, _, hq⟩
    · subst hq; simp
    · subst hq
      intro p hp
      rcases quals_key_mem hp with hh | hh <;> rw [hh] <;> decide
  rw [cfgGet_dictUpdate_of_notKey hqk]
  exact serializeOptionsPart_get h1 _ (by decide) (by decide)

theorem quals_other_of_spec {c quals : Config} (h2 : serializeQualifiersPart c = some quals)
    {k : String} (hk1 : k ≠ "is_optional") (hk2 : k ≠ "is_variadic") (base : Config) :
    cfgGet (dictUpdate base quals) k = cfgGet base k := by
  apply cfgGet_dictUpdate_of_notKey
  intro p hp
  rcases serializeQualifiersPart_eq h2 with ⟨_, hq⟩ | ⟨q, _, hq⟩
  · subst hq; simp at hp
  · subst hq
    rcases quals_key_mem hp with hh | hh
    · rw [hh]; exact fun he => hk1 he.symm
    · rw [hh]; exact fun he => hk2 he.symm

/-- Claim C5, as stated, is false: an `Argument` whose help text is present
(the empty string) and is not the `SUPPRESS` qualifier nevertheless serializes
with no `description` key, because the code tests Python truthiness of the
help value, not mere presence. -/
theorem C5_counterexample :
    cfgGet [("help", PyValue.str "")] "help" = some (PyValue.str "") ∧
    PyValue.str "" ≠ PyValue.qualifier Qualifiers.SUPPRESS ∧
    Argument.serialize emptyResolver (Argument.mk ["--x"] [("help", PyValue.str "")]) =
      some [("options", PyValue.strList ["--x"])] ∧
    cfgGet [("options", PyValue.strList ["--x"])] "description" = none := by
  exact ⟨rfl, by decide, rfl, rfl⟩

/-- Claim C5 (amended): whenever `Argument.serialize` succeeds, the output
contains a `description` key exactly when the effective configuration binds
`help` to a string that is non-empty and has a first line after stripping
(Python truthiness, not mere presence), and then `description` is exactly the
first line of the stripped help text; help equal to the `SUPPRESS` qualifier,
absent help, and empty-string help all yield no `description` key. -/
theorem C5_description_truncation (resolver : Resolver) (a : Argument) (r : Config)
    (h : Argument.serialize resolver a = some r) :
    cfgGet r "description" =
      (match cfgGet (Argument.effectiveConfiguration resolver a) "help" with
       | some (PyValue.str s) => ((pySplitlines (pyStrip s)).head?).map PyValue.str
       | _ => none) :=
  serialize_description_eq h

theorem C5_description_truncation_witness :
    cfgGet [("options", PyValue.strList ["--x"]), ("description", PyValue.str "Line one.")]
      "description" = some (PyValue.str "Line one.") := by
  have h := C5_description_truncation emptyResolver
    (Argument.mk ["--x"] [("help", PyValue.str "Line one.\nMore detail.")])
    [("options", PyValue.strList ["--x"]), ("description", PyValue.str "Line one.")] rfl
  simpa using h

/-- Claim C10: `Argument.serialize` is total only when the `nargs`
configuration entry, if present, is one of the three `Qualifiers` members;
any other value (an `argparse` sentinel string, an integer count, ...) makes
the unguarded `JSON_QUALIFIER_TO_OPTIONS` lookup raise instead of producing a
schema entry. -/
theorem C10_nargs_guard (resolver : Resolver) (a : Argument) (v : PyValue)
    (h : cfgGet a.configuration "nargs" = some v) (hv : ∀ q, v ≠ PyValue.qualifier q) :
    Argument.serialize resolver a = none := by
  cases hs : Argument.serialize resolver a with
  | none => rfl
  | some r =>
    exfalso
    obtain ⟨base, quals, r2, h1, h2, h3, hr⟩ := serialize_eq_some hs
    have hn : cfgGet (Argument.effectiveConfiguration resolver a) "nargs" =
        cfgGet a.configuration "nargs" :=
      cfgGet_effectiveConfiguration_other (by decide) (by decide) (by decide)
    have hz := serializeQualifiersPart_none (hn.trans h) hv
    rw [hz] at h2
    cases h2

theorem C10_nargs_guard_witness :
    Argument.serialize emptyResolver
      (Argument.mk ["--x"] [("nargs", PyValue.str "?")]) = none :=
  C10_nargs_guard emptyResolver (Argument.mk ["--x"] [("nargs", PyValue.str "?")])
    (PyValue.str "?") rfl (by intro q; cases q <;> decide)

/-- Claim C6: with non-empty aliases the serialized `options` is the alias
list and no `is_positional` field is emitted; with empty aliases (and a
`metavar` present, which a successful serialization forces) `options` is the
metavar value and `is_positional` is true. -/
theorem C6_options_positional (resolver : Resolver) (a : Argument) (r : Config)
    (h : Argument.serialize resolver a = some r) :
    (a.aliases ≠ [] →
      cfgGet r "options" = some (PyValue.strList a.aliases) ∧
      cfgGet r "is_positional" = none) ∧
    (a.aliases = [] →
      ∃ v, cfgGet a.configuration "metavar" = some v ∧
        cfgGet r "options" = some v ∧
        cfgGet r "is_positional" = some (PyValue.bool true)) := by
  obtain ⟨base, quals, r2, h1, h2, h3, hr⟩ := serialize_eq_some h
  subst hr
  have hop : cfgGet (dictUpdate (serializeTypePart (Argument.effectiveConfiguration resolver a) r2)
      ((Argument.effectiveConfiguration resolver a).filter
        (fun p => JSON_DIRECT_MIRROR_OPTIONS.contains p.1))) "options" = cfgGet base "options" := by
    rw [cfgGet_mirror_other _ (by decide) (by decide), serializeTypePart_other (by decide),
      serializeHelpPart_other h3 _ (by decide)]
    exact quals_other_of_spec h2 (by decide) (by decide) base
  have hip : cfgGet (dictUpdate (serializeTypePart (Argument.effectiveConfiguration resolver a) r2)
      ((Argument.effectiveConfiguration resolver a).filter
        (fun p => JSON_DIRECT_MIRROR_OPTIONS.contains p.1))) "is_positional" =
      cfgGet base "is_positional" := by
    rw [cfgGet_mirror_other _ (by decide) (by decide), serializeTypePart_other (by decide),
      serializeHelpPart_other h3 _ (by decide)]
    exact quals_other_of_spec h2 (by decide) (by decide) base
  unfold serializeOptionsPart at h1
  constructor
  · intro hal
    rw [if_pos hal] at h1
    cases h1
    rw [hop, hip]
    exact ⟨rfl, rfl⟩
  · intro hal
    rw [if_neg (by simp [hal])] at h1
    cases hmv : cfgGet (Argument.effectiveConfiguration resolver a) "metavar" with
    | none => rw [hmv] at h1; cases h1
    | some v =>
      rw [hmv] at h1
      cases h1
      refine ⟨v, ?_, ?_, ?_⟩
      · rw [← @cfgGet_effectiveConfiguration_other resolver a "metavar"
          (by decide) (by decide) (by decide)]
        exact hmv
      · rw [hop]; rfl
      · rw [hip]; rfl

theorem C6_options_positional_witness :
    cfgGet [("options", PyValue.str "URL"), ("is_positional", PyValue.bool true),
        ("metavar", PyValue.str "URL")] "options" = some (PyValue.str "URL") ∧
    cfgGet [("options", PyValue.str "URL"), ("is_positional", PyValue.bool true),
        ("metavar", PyValue.str "URL")] "is_positional" = some (PyValue.bool true) := by
  obtain ⟨v, hv, ho, hp⟩ := (C6_options_positional emptyResolver
    (Argument.mk [] [("metavar", PyValue.str "URL")])
    [("options", PyValue.str "URL"), ("is_positional", PyValue.bool true),
      ("metavar", PyValue.str "URL")] rfl).2 rfl
  cases hv
  exact ⟨ho, hp⟩

/-- Claim C1: `Argument.serialize` expands the cardinality qualifier stored
under `nargs` via the fixed table: `OPTIONAL` adds `is_optional = true` only,
`ZERO_OR_MORE` adds `is_optional = true` and `is_variadic = true`, `SUPPRESS`
adds neither field, and an absent qualifier adds neither field. -/
theorem C1_qualifier_table (resolver : Resolver) (a : Argument) (r : Config)
    (h : Argument.serialize resolver a = some r) :
    (cfgGet r "is_optional", cfgGet r "is_variadic") =
      (match cfgGet a.configuration "nargs" with
       | some (PyValue.qualifier Qualifiers.OPTIONAL) => (some (PyValue.bool true), none)
       | some (PyValue.qualifier Qualifiers.ZERO_OR_MORE) =>
           (some (PyValue.bool true), some (PyValue.bool true))
       | _ => (none, none)) := by
  obtain ⟨base, quals, r2, h1, h2, h3, hr⟩ := serialize_eq_some h
  subst hr
  have hn : cfgGet (Argument.effectiveConfiguration resolver a) "nargs" =
      cfgGet a.configuration "nargs" :=
    cfgGet_effectiveConfiguration_other (by decide) (by decide) (by decide)
  have hio : cfgGet (dictUpdate (serializeTypePart (Argument.effectiveConfiguration resolver a) r2)
      ((Argument.effectiveConfiguration resolver a).filter
        (fun p => JSON_DIRECT_MIRROR_OPTIONS.contains p.1))) "is_optional" =
      cfgGet (dictUpdate base quals) "is_optional" := by
    rw [cfgGet_mirror_other _ (by decide) (by decide), serializeTypePart_other (by decide)]
    exact serializeHelpPart_other h3 _ (by decide)
  have hiv : cfgGet (dictUpdate (serializeTypePart (Argument.effectiveConfiguration resolver a) r2)
      ((Argument.effectiveConfiguration resolver a).filter
        (fun p => JSON_DIRECT_MIRROR_OPTIONS.contains p.1))) "is_variadic" =
      cfgGet (dictUpdate base quals) "is_variadic" := by
    rw [cfgGet_mirror_other _ (by decide) (by decide), serializeTypePart_other (by decide)]
    exact serializeHelpPart_other h3 _ (by decide)
  rw [hio, hiv]
  rcases serializeQualifiersPart_eq h2 with ⟨hn0, hq⟩ | ⟨q, hq, hqe⟩
  · subst hq
    have hcn : cfgGet a.configuration "nargs" = none := by rw [← hn]; exact hn0
    rw [hcn, dictUpdate_nil,
      serializeOptionsPart_get h1 _ (by decide) (by decide),
      serializeOptionsPart_get h1 _ (by decide) (by decide)]
  · have hcn : cfgGet a.configuration "nargs" = some (PyValue.qualifier q) := by
      rw [← hn]; exact hq
    rw [hcn]
    subst hqe
    cases q with
    | OPTIONAL =>
      have e1 : cfgGet (dictUpdate base (JSON_QUALIFIER_TO_OPTIONS Qualifiers.OPTIONAL))
          "is_optional" = some (PyValue.bool true) :=
        cfgGet_cfgSet_self base "is_optional" (PyValue.bool true)
      have e2 : cfgGet (dictUpdate base (JSON_QUALIFIER_TO_OPTIONS Qualifiers.OPTIONAL))
          "is_variadic" = cfgGet base "is_variadic" :=
        cfgGet_cfgSet_other (by decide)
      rw [e1, e2, serializeOptionsPart_get h1 _ (by decide) (by decide)]
    | ZERO_OR_MORE =>
      have e1 : cfgGet (dictUpdate base (JSON_QUALIFIER_TO_OPTIONS Qualifiers.ZERO_OR_MORE))
          "is_optional" = some (PyValue.bool true) := by
        show cfgGet (cfgSet (cfgSet base "is_optional" (PyValue.bool true))
          "is_variadic" (PyValue.bool true)) "is_optional" = some (PyValue.bool true)
        rw [cfgGet_cfgSet_other (by decide)]
        exact cfgGet_cfgSet_self base "is_optional" (PyValue.bool true)
      have e2 : cfgGet (dictUpdate base (JSON_QUALIFIER_TO_OPTIONS Qualifiers.ZERO_OR_MORE))
          "is_variadic" = some (PyValue.bool true) :=
        cfgGet_cfgSet_self _ "is_variadic" (PyValue.bool true)
      rw [e1, e2]
    | SUPPRESS =>
      rw [show JSON_QUALIFIER_TO_OPTIONS Qualifiers.SUPPRESS = ([] : Config) from rfl,
        dictUpdate_nil,
        serializeOptionsPart_get h1 _ (by decide) (by decide),
        serializeOptionsPart_get h1 _ (by decide) (by decide)]

theorem C1_qualifier_table_witness :
    (cfgGet [("options", PyValue.strList ["--x"]), ("is_optional", PyValue.bool true),
        ("is_variadic", PyValue.bool true)] "is_optional",
     cfgGet [("options", PyValue.strList ["--x"]), ("is_optional", PyValue.bool true),
        ("is_variadic", PyValue.bool true)] "is_variadic") =
      (some (PyValue.bool true), some (PyValue.bool true)) := by
  have h := C1_qualifier_table emptyResolver
    (Argument.mk ["--x"] [("nargs", PyValue.qualifier Qualifiers.ZERO_OR_MORE)])
    [("options", PyValue.strList ["--x"]), ("is_optional", PyValue.bool true),
      ("is_variadic", PyValue.bool true)] rfl
  exact h

/-- Claim C3: for an argument whose configuration marks its choices as lazy
(`action = 'lazy_choices'`), a successful serialization invokes the resolver
and the output's `choices` equals the resolved value sequence while
`description` is the first line of the resolver's (stripped) help string,
regardless of any statically declared `choices` or `help`. -/
theorem C3_lazy_choices (resolver : Resolver) (a : Argument) (r : Config)
    (hl : cfgGet a.configuration "action" = some (PyValue.str "lazy_choices"))
    (h : Argument.serialize resolver a = some r) :
    cfgGet r "choices" =
      some (PyValue.strList (resolver a.aliases (cfgDel a.configuration "action")).values) ∧
    cfgGet r "description" =
      ((pySplitlines (pyStrip
        (resolver a.aliases (cfgDel a.configuration "action")).helpText)).head?).map
        PyValue.str := by
  constructor
  · obtain ⟨base, quals, r2, h1, h2, h3, hr⟩ := serialize_eq_some h
    subst hr
    apply cfgGet_dictUpdate_const
    · refine ⟨PyValue.strList (resolver a.aliases (cfgDel a.configuration "action")).values, ?_⟩
      exact List.mem_filter.mpr ⟨choices_mem_of_lazy resolver a hl,
        by simp [JSON_DIRECT_MIRROR_OPTIONS]⟩
    · intro v' hv'
      have hm := (List.mem_filter.mp hv').1
      rw [choices_value_of_lazy hl hm]
  · have hd := serialize_description_eq h
    rw [help_get_of_lazy hl] at hd
    exact hd

theorem C3_lazy_choices_witness :
    cfgGet [("options", PyValue.strList ["--style"]),
        ("description", PyValue.str "Available plugins."),
        ("choices", PyValue.strList ["plugin-a", "plugin-b"])] "choices" =
      some (PyValue.strList ["plugin-a", "plugin-b"]) ∧
    cfgGet [("options", PyValue.strList ["--style"]),
        ("description", PyValue.str "Available plugins."),
        ("choices", PyValue.strList ["plugin-a", "plugin-b"])] "description" =
      some (PyValue.str "Available plugins.") := by
  have h := C3_lazy_choices demoResolver
    (Argument.mk ["--style"] [("action", PyValue.str "lazy_choices"),
      ("help", PyValue.str "static"), ("choices", PyValue.strList ["old"])])
    [("options", PyValue.strList ["--style"]),
      ("description", PyValue.str "Available plugins."),
      ("choices", PyValue.strList ["plugin-a", "plugin-b"])] rfl rfl
  simpa using h

/-- Claim C9, as stated, is false: a configuration binding `choices` to `None`
is mirrored verbatim, so the serialized mapping binds the `choices` key to a
null value instead of omitting it. -/
theorem C9_counterexample :
    Argument.serialize emptyResolver (Argument.mk ["--x"] [("choices", PyValue.pyNone)]) =
      some [("options", PyValue.strList ["--x"]), ("choices", PyValue.pyNone)] ∧
    cfgGet [("options", PyValue.strList ["--x"]), ("choices", PyValue.pyNone)] "choices" =
      some PyValue.pyNone := ⟨rfl, rfl⟩

/-- Claim C9 (amended): for every argument whose configuration does not bind
`choices` or `metavar` to null, no key of the serialized mapping is bound to a
null value — every optional field is present with a non-null value or omitted
entirely. -/
theorem C9_no_null_fields (resolver : Resolver) (a : Argument) (r : Config)
    (hc : ∀ v, ("choices", v) ∈ a.configuration → v ≠ PyValue.pyNone)
    (hm : ∀ v, ("metavar", v) ∈ a.configuration → v ≠ PyValue.pyNone)
    (h : Argument.serialize resolver a = some r) :
    ∀ k, cfgGet r k ≠ some PyValue.pyNone := by
  obtain ⟨base, quals, r2, h1, h2, h3, hr⟩ := serialize_eq_some h
  subst hr
  have hce : ∀ v, ("choices", v) ∈ Argument.effectiveConfiguration resolver a →
      v ≠ PyValue.pyNone := by
    intro v hv
    rcases mem_effectiveConfiguration hv with hmem | he | he
    · exact hc v hmem
    · rw [(Prod.mk.injEq _ _ _ _).mp he |>.2]; simp
    · exact absurd (congrArg Prod.fst he) (by simp)
  have hme : ∀ v, ("metavar", v) ∈ Argument.effectiveConfiguration resolver a →
      v ≠ PyValue.pyNone := by
    intro v hv
    rcases mem_effectiveConfiguration hv with hmem | he | he
    · exact hm v hmem
    · exact absurd (congrArg Prod.fst he) (by simp)
    · exact absurd (congrArg Prod.fst he) (by simp)
  have hb : NoNull base := serializeOptionsPart_noNull h1 hme
  have hbq : NoNull (dictUpdate base quals) := by
    apply noNull_dictUpdate hb
    intro p hp
    rcases serializeQualifiersPart_eq h2 with ⟨_, hq⟩ | ⟨q, _, hq⟩
    · subst hq; simp at hp
    · subst hq; exact quals_value_not_null hp
  have hr2 : NoNull r2 := serializeHelpPart_noNull h3 hbq
  have ht : NoNull (serializeTypePart (Argument.effectiveConfiguration resolver a) r2) :=
    serializeTypePart_noNull hr2
  have hfin : NoNull (dictUpdate
      (serializeTypePart (Argument.effectiveConfiguration resolver a) r2)
      ((Argument.effectiveConfiguration resolver a).filter
        (fun p => JSON_DIRECT_MIRROR_OPTIONS.contains p.1))) := by
    apply noNull_dictUpdate ht
    intro p hp
    obtain ⟨hmem, hkey⟩ := mirror_filter_keys hp
    obtain ⟨pk, pv⟩ := p
    rcases hkey with hk | hk
    · simp only at hk
      subst hk
      exact hce pv hmem
    · simp only at hk
      subst hk
      exact hme pv hmem
  exact fun k => cfgGet_not_null hfin k

theorem C9_no_null_fields_witness :
    cfgGet [("options", PyValue.strList ["--x"]), ("description", PyValue.str "Help."),
      ("choices", PyValue.strList ["a"])] "choices" ≠ some PyValue.pyNone := by
  have h := C9_no_null_fields emptyResolver
    (Argument.mk ["--x"] [("choices", PyValue.strList ["a"]), ("help", PyValue.str "Help.")])
    [("options", PyValue.strList ["--x"]), ("description", PyValue.str "Help."),
      ("choices", PyValue.strList ["a"])]
    (by intro v hv; simp at hv; rw [hv]; simp)
    (by intro v hv; simp at hv)
    rfl
  exact h "choices"

theorem lt_of_getElem?_some {α : Type _} {l : List α} {i : Nat} {a : α}
    (h : l[i]? = some a) : i < l.length := by
  induction l generalizing i with
  | nil => simp at h
  | cons c rest ih =>
    cases i with
    | zero => simp
    | succ n =>
      simp only [List.getElem?_cons_succ] at h
      have := ih h
      simpa using Nat.succ_lt_succ this

theorem getElem?_some_of_lt {α : Type _} {l : List α} {i : Nat} (h : i < l.length) :
    ∃ a, l[i]? = some a := by
  induction l generalizing i with
  | nil => simp at h
  | cons c rest ih =>
    cases i with
    | zero => exact ⟨c, by simp⟩
    | succ n =>
      obtain ⟨a, ha⟩ := ih (by simpa using Nat.lt_of_succ_lt_succ h)
      exact ⟨a, by simpa using ha⟩

theorem mapMOption_eq_some {α β : Type} {f : α → Option β} {l : List α} {out : List β}
    (h : mapMOption f l = some out) :
    out.length = l.length ∧ ∀ i : Nat, out[i]? = (l[i]?).bind f := by
  induction l generalizing out with
  | nil =>
    cases h
    exact ⟨rfl, fun i => by simp⟩
  | cons a rest ih =>
    unfold mapMOption at h
    cases hfa : f a with
    | none => rw [hfa] at h; cases h
    | some b =>
      rw [hfa] at h
      cases hrest : mapMOption f rest with
      | none => rw [hrest] at h; cases h
      | some bs =>
        rw [hrest] at h
        cases h
        obtain ⟨hl, hi⟩ := ih hrest
        refine ⟨by simp [hl], ?_⟩
        intro i
        cases i with
        | zero => simp [hfa]
        | succ n => simpa using hi n

theorem map_qualifiers_eq_some {configuration out : Config}
    {qualifier_map : Qualifiers → Option PyValue}
    (h : map_qualifiers configuration qualifier_map = some out) :
    out.length = configuration.length ∧
    (∀ (i : Nat) k q, configuration[i]? = some (k, PyValue.qualifier q) →
      ∃ w, qualifier_map q = some w ∧ out[i]? = some (k, w)) ∧
    (∀ (i : Nat) k v, configuration[i]? = some (k, v) → (∀ q, v ≠ PyValue.qualifier q) →
      out[i]? = some (k, v)) := by
  induction configuration generalizing out with
  | nil =>
    cases h
    refine ⟨rfl, ?_, ?_⟩
    · intro i k q hik
      simp at hik
    · intro i k v hik _
      simp at hik
  | cons p rest ih =>
    obtain ⟨key, value⟩ := p
    unfold map_qualifiers at h
    cases hmv : map_qualifier_value qualifier_map value with
    | none => rw [hmv] at h; cases h
    | some w =>
      rw [hmv] at h
      cases hrest : map_qualifiers rest qualifier_map with
      | none => rw [hrest] at h; cases h
      | some out2 =>
        rw [hrest] at h
        cases h
        obtain ⟨ihlen, ihq, ihv⟩ := ih hrest
        refine ⟨by simp [ihlen], ?_, ?_⟩
        · intro i k q hik
          cases i with
          | zero =>
            simp only [List.getElem?_cons_zero, Option.some.injEq] at hik
            obtain ⟨hk, hv⟩ := Prod.mk.injEq _ _ _ _ ▸ hik
            subst hk
            subst hv
            refine ⟨w, ?_, by simp⟩
            simpa [map_qualifier_value] using hmv
          | succ n =>
            obtain ⟨w', hw', hout'⟩ := ihq n k q (by simpa using hik)
            exact ⟨w', hw', by simpa using hout'⟩
        · intro i k v hik hnq
          cases i with
          | zero =>
            simp only [List.getElem?_cons_zero, Option.some.injEq] at hik
            obtain ⟨hk, hv⟩ := Prod.mk.injEq _ _ _ _ ▸ hik
            subst hk
            subst hv
            have hwv : w = value := by
              cases value with
              | qualifier q => exact absurd rfl (hnq q)
              | str s => cases hmv; rfl
              | int n => cases hmv; rfl
              | bool b => cases hmv; rfl
              | strList xs => cases hmv; rfl
              | pyNone => cases hmv; rfl
              | func n => cases hmv; rfl
              | obj n => cases hmv; rfl
            subst hwv
            simp
          | succ n => simpa using ihv n k v (by simpa using hik) hnq

theorem map_qualifiers_missing {configuration : Config}
    {qualifier_map : Qualifiers → Option PyValue} {k : String} {q : Qualifiers}
    (hmem : (k, PyValue.qualifier q) ∈ configuration) (hq : qualifier_map q = none) :
    map_qualifiers configuration qualifier_map = none := by
  induction configuration with
  | nil => simp at hmem
  | cons p rest ih =>
    obtain ⟨key, value⟩ := p
    unfold map_qualifiers
    rcases List.mem_cons.mp hmem with he | he
    · cases he
      simp [map_qualifier_value, hq]
    · rw [ih he]
      cases map_qualifier_value qualifier_map value <;> rfl

/-- Claim C2: `map_qualifiers` returns a mapping of the same length in which
every entry keeps its key, every `Qualifiers` value is replaced through the
supplied target map, and every other value is unchanged; and a `Qualifiers`
value with no entry in the target map makes the whole call fail (`KeyError`)
rather than being dropped or passed through. -/
theorem C2_map_qualifiers (configuration : Config)
    (qualifier_map : Qualifiers → Option PyValue) :
    (∀ out, map_qualifiers configuration qualifier_map = some out →
      out.length = configuration.length ∧
      (∀ (i : Nat) k q, configuration[i]? = some (k, PyValue.qualifier q) →
        ∃ w, qualifier_map q = some w ∧ out[i]? = some (k, w)) ∧
      (∀ (i : Nat) k v, configuration[i]? = some (k, v) → (∀ q, v ≠ PyValue.qualifier q) →
        out[i]? = some (k, v))) ∧
    (∀ k q, (k, PyValue.qualifier q) ∈ configuration → qualifier_map q = none →
      map_qualifiers configuration qualifier_map = none) :=
  ⟨fun _ h => map_qualifiers_eq_some h, fun _ _ hm hq => map_qualifiers_missing hm hq⟩

theorem C2_map_qualifiers_witness :
    ([("nargs", PyValue.str "?"), ("help", PyValue.str "h")] : Config)[0]? =
      some ("nargs", PyValue.str "?") ∧
    map_qualifiers [("nargs", PyValue.qualifier Qualifiers.OPTIONAL)] (fun _ => none) = none := by
  constructor
  · obtain ⟨w, hw, hout⟩ := ((C2_map_qualifiers
      [("nargs", PyValue.qualifier Qualifiers.OPTIONAL), ("help", PyValue.str "h")]
      ARGPARSE_QUALIFIER_MAP).1
      [("nargs", PyValue.str "?"), ("help", PyValue.str "h")] rfl).2.1
      0 "nargs" Qualifiers.OPTIONAL (by simp)
    cases hw
    exact hout
  · exact (C2_map_qualifiers [("nargs", PyValue.qualifier Qualifiers.OPTIONAL)]
      (fun _ => none)).2 "nargs" Qualifiers.OPTIONAL (by simp) rfl

theorem one_le_countP {α : Type _} {l : List α} {p : α → Bool} {a : α}
    (ha : a ∈ l) (hpa : p a = true) : 1 ≤ l.countP p := by
  induction l with
  | nil => simp at ha
  | cons c rest ih =>
    rcases List.mem_cons.mp ha with he | he
    · subst he
      rw [List.countP_cons]
      simp [hpa]
    · have := ih he
      rw [List.countP_cons]
      omega

theorem two_le_countP {α : Type _} {l : List α} {p : α → Bool} {i j : Nat} {a b : α}
    (hij : i ≠ j) (ha : l[i]? = some a) (hb : l[j]? = some b)
    (hpa : p a = true) (hpb : p b = true) : 2 ≤ l.countP p := by
  induction l generalizing i j with
  | nil => simp at ha
  | cons c rest ih =>
    cases i with
    | zero =>
      cases j with
      | zero => exact absurd rfl hij
      | succ n =>
        simp only [List.getElem?_cons_zero, Option.some.injEq] at ha
        have hb' : rest[n]? = some b := by simpa using hb
        have h1 : 1 ≤ rest.countP p := one_le_countP (memOfGetElem hb') hpb
        have hpc : p c = true := by rw [ha]; exact hpa
        rw [List.countP_cons, if_pos hpc]
        omega
    | succ n =>
      cases j with
      | zero =>
        simp only [List.getElem?_cons_zero, Option.some.injEq] at hb
        have ha' : rest[n]? = some a := by simpa using ha
        have h1 : 1 ≤ rest.countP p := one_le_countP (memOfGetElem ha') hpa
        have hpc : p c = true := by rw [hb]; exact hpb
        rw [List.countP_cons, if_pos hpc]
        omega
      | succ m =>
        have hij' : n ≠ m := fun he => hij (congrArg Nat.succ he)
        have h2 := ih hij' (by simpa using ha) (by simpa using hb)
        rw [List.countP_cons]
        omega

theorem countP_le_one {α : Type _} {l : List α} {p : α → Bool}
    (h : ∀ (i j : Nat) (a b : α), i ≠ j → l[i]? = some a → l[j]? = some b →
      ¬(p a = true ∧ p b = true)) : l.countP p ≤ 1 := by
  induction l with
  | nil => simp
  | cons c rest ih =>
    rw [List.countP_cons]
    by_cases hpc : p c = true
    · have hzero : rest.countP p = 0 := by
        rw [List.countP_eq_zero]
        intro x hx hpx
        obtain ⟨n, hn⟩ := getElemOfMem hx
        exact h 0 (n + 1) c x (by omega) (by simp) (by simpa using hn) ⟨hpc, hpx⟩
      simp [hzero, hpc]
    · have hone : rest.countP p ≤ 1 :=
        ih (fun i j a b hij ha hb =>
          h (i + 1) (j + 1) a b (by omega) (by simpa using ha) (by simpa using hb))
      simp [hpc]
      omega

theorem registerArgument_ok {registered : List String} {arg : Argument}
    {r1 : List String} {c : ConcreteArgument}
    (h : registerArgument registered arg = Except.ok (r1, c)) :
    r1 = registered ++ arg.aliases ∧ c.aliases = arg.aliases ∧
    ∀ x ∈ arg.aliases, x ∉ registered := by
  unfold registerArgument at h
  by_cases hg : arg.aliases.any (fun a => registered.contains a) = true
  · rw [if_pos hg] at h
    cases h
  · rw [if_neg hg] at h
    cases hmq : map_qualifiers arg.configuration ARGPARSE_QUALIFIER_MAP with
    | none => rw [hmq] at h; cases h
    | some cfg =>
      rw [hmq] at h
      cases h
      refine ⟨rfl, rfl, ?_⟩
      intro x hx hxr
      apply hg
      refine List.any_eq_true.mpr ⟨x, hx, ?_⟩
      simpa using hxr

theorem addArguments_ok {registered : List String} {l : List Argument}
    {reg2 : List String} {cs : List ConcreteArgument}
    (h : addArguments registered l = Except.ok (reg2, cs)) :
    cs.length = l.length ∧
    (∀ i : Nat, (cs[i]?).map ConcreteArgument.aliases = (l[i]?).map Argument.aliases) ∧
    (∀ x, x ∈ registered → x ∈ reg2) ∧
    (∀ (i : Nat) a, l[i]? = some a → ∀ x ∈ a.aliases, x ∈ reg2) ∧
    (∀ (i : Nat) a, l[i]? = some a → ∀ x ∈ a.aliases, x ∉ registered) ∧
    (∀ (i j : Nat) a b, i ≠ j → l[i]? = some a → l[j]? = some b →
      ∀ x, x ∈ a.aliases → x ∈ b.aliases → False) := by
  induction l generalizing registered reg2 cs with
  | nil =>
    unfold addArguments at h
    cases h
    refine ⟨rfl, ?_, fun x hx => hx, ?_, ?_, ?_⟩
    · intro i; simp
    · intro i a hia; simp at hia
    · intro i a hia; simp at hia
    · intro i j a b _ hia; simp at hia
  | cons a0 rest ih =>
    unfold addArguments at h
    cases hreg : registerArgument registered a0 with
    | error e => rw [hreg] at h; cases h
    | ok pr =>
      obtain ⟨r1, c⟩ := pr
      rw [hreg] at h
      have h' : (match addArguments r1 rest with
        | Except.error e => Except.error e
        | Except.ok (r2, cs) => Except.ok (r2, c :: cs)) = Except.ok (reg2, cs) := h
      clear h
      cases hrest : addArguments r1 rest with
      | error e => rw [hrest] at h'; cases h'
      | ok pr2 =>
        obtain ⟨rr, cs2⟩ := pr2
        rw [hrest] at h'
        cases h'
        obtain ⟨he1, he2, he3⟩ := registerArgument_ok hreg
        obtain ⟨ih1, ih2, ih3, ih4, ih5, ih6⟩ := ih hrest
        subst he1
        refine ⟨by simp [ih1], ?_, ?_, ?_, ?_, ?_⟩
        · intro i
          cases i with
          | zero => simp [he2]
          | succ n => simpa using ih2 n
        · intro x hx
          exact ih3 x (List.mem_append_left _ hx)
        · intro i a hia x hx
          cases i with
          | zero =>
            simp only [List.getElem?_cons_zero, Option.some.injEq] at hia
            subst hia
            exact ih3 x (List.mem_append_right _ hx)
          | succ n => exact ih4 n a (by simpa using hia) x hx
        · intro i a hia x hx
          cases i with
          | zero =>
            simp only [List.getElem?_cons_zero, Option.some.injEq] at hia
            subst hia
            exact he3 x hx
          | succ n =>
            intro hxr
            exact ih5 n a (by simpa using hia) x hx (List.mem_append_left _ hxr)
        · intro i j a b hij hia hjb x hxa hxb
          cases i with
          | zero =>
            cases j with
            | zero => exact hij rfl
            | succ m =>
              simp only [List.getElem?_cons_zero, Option.some.injEq] at hia
              subst hia
              exact ih5 m b (by simpa using hjb) x hxb (List.mem_append_right _ hxa)
          | succ n =>
            cases j with
            | zero =>
              simp only [List.getElem?_cons_zero, Option.some.injEq] at hjb
              subst hjb
              exact ih5 n a (by simpa using hia) x hxa (List.mem_append_right _ hxb)
            | succ m =>
              exact ih6 n m a b (fun he => hij (congrArg Nat.succ he)) (by simpa using hia)
                (by simpa using hjb) x hxa hxb

theorem addGroups_ok {registered reg2 : List String} {gs : List Group}
    {cgs : List ConcreteGroup}
    (h : addGroups registered gs = Except.ok (reg2, cgs)) :
    cgs.length = gs.length ∧
    (∀ (i : Nat) g, gs[i]? = some g → ∃ cg, cgs[i]? = some cg ∧
      cg.title = g.name ∧ cg.description = g.description ∧
      cg.isExclusive = g.is_mutually_exclusive ∧ cg.exclusiveRequired = false ∧
      cg.arguments.length = g.arguments.length ∧
      (∀ j : Nat, (cg.arguments[j]?).map ConcreteArgument.aliases =
        (g.arguments[j]?).map Argument.aliases)) ∧
    (∀ x, x ∈ registered → x ∈ reg2) ∧
    (∀ (i : Nat) g (j : Nat) a, gs[i]? = some g → g.arguments[j]? = some a →
      ∀ x ∈ a.aliases, x ∈ reg2) ∧
    (∀ (i : Nat) g (j : Nat) a, gs[i]? = some g → g.arguments[j]? = some a →
      ∀ x ∈ a.aliases, x ∉ registered) ∧
    (∀ (gi : Nat) g (j : Nat) a (gi2 : Nat) g2 (j2 : Nat) a2,
      gs[gi]? = some g → gs[gi2]? = some g2 →
      g.arguments[j]? = some a → g2.arguments[j2]? = some a2 →
      (gi, j) ≠ (gi2, j2) → ∀ x, x ∈ a.aliases → x ∈ a2.aliases → False) := by
  induction gs generalizing registered reg2 cgs with
  | nil =>
    unfold addGroups at h
    cases h
    refine ⟨rfl, ?_, fun x hx => hx, ?_, ?_, ?_⟩
    · intro i g hig; simp at hig
    · intro i g j a hig; simp at hig
    · intro i g j a hig; simp at hig
    · intro gi g j a gi2 g2 j2 a2 hig; simp at hig
  | cons g0 rest ih =>
    unfold addGroups at h
    cases hargs : addArguments registered g0.arguments with
    | error e => rw [hargs] at h; cases h
    | ok pr =>
      obtain ⟨r1, cargs⟩ := pr
      rw [hargs] at h
      have h' : (match addGroups r1 rest with
        | Except.error e => Except.error e
        | Except.ok (r2, cgs) => Except.ok (r2,
            ConcreteGroup.mk g0.name g0.description g0.is_mutually_exclusive false cargs ::
              cgs)) = Except.ok (reg2, cgs) := h
      clear h
      cases hrest : addGroups r1 rest with
      | error e => rw [hrest] at h'; cases h'
      | ok pr2 =>
        obtain ⟨rr, cgs2⟩ := pr2
        rw [hrest] at h'
        cases h'
        obtain ⟨a1, a2, a3, a4, a5, a6⟩ := addArguments_ok hargs
        obtain ⟨ih1, ih2, ih3, ih4, ih5, ih6⟩ := ih hrest
        refine ⟨by simp [ih1], ?_, ?_, ?_, ?_, ?_⟩
        · intro i g hig
          cases i with
          | zero =>
            simp only [List.getElem?_cons_zero, Option.some.injEq] at hig
            subst hig
            exact ⟨ConcreteGroup.mk g0.name g0.description g0.is_mutually_exclusive false cargs,
              by simp, rfl, rfl, rfl, rfl, a1, a2⟩
          | succ n =>
            obtain ⟨cg, hcg, hrest'⟩ := ih2 n g (by simpa using hig)
            exact ⟨cg, by simpa using hcg, hrest'⟩
        · intro x hx
          exact ih3 x (a3 x hx)
        · intro i g j a hig hja x hx
          cases i with
          | zero =>
            simp only [List.getElem?_cons_zero, Option.some.injEq] at hig
            subst hig
            exact ih3 x (a4 j a hja x hx)
          | succ n => exact ih4 n g j a (by simpa using hig) hja x hx
        · intro i g j a hig hja x hx
          cases i with
          | zero =>
            simp only [List.getElem?_cons_zero, Option.some.injEq] at hig
            subst hig
            exact a5 j a hja x hx
          | succ n =>
            intro hxr
            exact ih5 n g j a (by simpa using hig) hja x hx (a3 x hxr)
        · intro gi g j a gi2 g2 j2 a2' hig hig2 hja hja2 hne x hxa hxa2
          cases gi with
          | zero =>
            simp only [List.getElem?_cons_zero, Option.some.injEq] at hig
            subst hig
            cases gi2 with
            | zero =>
              simp only [List.getElem?_cons_zero, Option.some.injEq] at hig2
              subst hig2
              have hjj : j ≠ j2 := by
                intro he
                exact hne (by rw [he])
              exact a6 j j2 a a2' hjj hja hja2 x hxa hxa2
            | succ m =>
              exact ih5 m g2 j2 a2' (by simpa using hig2) hja2 x hxa2 (a4 j a hja x hxa)
          | succ n =>
            cases gi2 with
            | zero =>
              simp only [List.getElem?_cons_zero, Option.some.injEq] at hig2
              subst hig2
              exact ih5 n g j a (by simpa using hig) hja x hxa (a4 j2 a2' hja2 x hxa2)
            | succ m =>
              have hne' : (n, j) ≠ (m, j2) := by
                intro he
                have h1 := congrArg Prod.fst he
                have h2 := congrArg Prod.snd he
                simp only at h1 h2
                exact hne (by rw [h1, h2])
              exact ih6 n g j a m g2 j2 a2' (by simpa using hig) (by simpa using hig2)
                hja hja2 hne' x hxa hxa2

theorem to_argparse_ok {spec : ParserSpec} {p : ConcreteParser}
    (h : to_argparse spec = Except.ok p) :
    ∃ reg2, addGroups [] spec.groups = Except.ok (reg2, p.groups) := by
  unfold to_argparse at h
  cases hag : addGroups [] spec.groups with
  | error e => rw [hag] at h; cases h
  | ok pr =>
    obtain ⟨r2, gs⟩ := pr
    rw [hag] at h
    cases h
    exact ⟨r2, rfl⟩

/-- Claim C8: a `ParserSpec` in which two arguments (at distinct positions,
possibly in different groups) share an alias never compiles to a parser: the
compilation fails with a construction-time `SpecificationError` before any
parser object is returned. -/
theorem C8_duplicate_alias (spec : ParserSpec) (g1 a1 g2 a2 : Nat)
    (grpA : Group) (argA : Argument) (grpB : Group) (argB : Argument) (x : String)
    (hg1 : spec.groups[g1]? = some grpA) (ha1 : grpA.arguments[a1]? = some argA)
    (hg2 : spec.groups[g2]? = some grpB) (ha2 : grpB.arguments[a2]? = some argB)
    (hne : (g1, a1) ≠ (g2, a2))
    (hx1 : x ∈ argA.aliases) (hx2 : x ∈ argB.aliases) :
    isSpecError (to_argparse spec) = true := by
  cases hta : to_argparse spec with
  | error e => rfl
  | ok p =>
    exfalso
    obtain ⟨reg2, hag⟩ := to_argparse_ok hta
    obtain ⟨_, _, _, _, _, hdisj⟩ := addGroups_ok hag
    exact hdisj g1 grpA a1 argA g2 grpB a2 argB hg1 hg2 ha1 ha2 hne x hx1 hx2

theorem C8_duplicate_alias_witness : isSpecError (to_argparse dupAliasSpec) = true :=
  C8_duplicate_alias dupAliasSpec 0 0 1 0
    (Group.mk "SSL" "" false [Argument.mk ["--verify"] []])
    (Argument.mk ["--verify"] [])
    (Group.mk "Other" "" false [Argument.mk ["--verify", "-V"] []])
    (Argument.mk ["--verify", "-V"] [])
    "--verify" rfl rfl rfl rfl (by decide) (by decide) (by decide)

/-- Claim C4: both compilation targets preserve declaration order exactly —
the schema document lists groups in `ParserSpec.groups` order with each
group's arguments serialized in order, and the concrete parser registers
groups and arguments in the same order, so the two targets agree. -/
theorem C4_order_preservation (resolver : Resolver) (spec : ParserSpec)
    (doc : SpecDoc) (p : ConcreteParser)
    (hdoc : ParserSpec.serialize resolver spec = some doc)
    (hp : to_argparse spec = Except.ok p) :
    doc.groups.length = spec.groups.length ∧
    p.groups.length = spec.groups.length ∧
    (∀ i : Nat, (doc.groups[i]?).map GroupDoc.name = (spec.groups[i]?).map Group.name) ∧
    (∀ i : Nat, (p.groups[i]?).map ConcreteGroup.title = (spec.groups[i]?).map Group.name) ∧
    (∀ (i : Nat) g gd, spec.groups[i]? = some g → doc.groups[i]? = some gd →
      gd.args.length = g.arguments.length ∧
      ∀ j : Nat, gd.args[j]? = (g.arguments[j]?).bind (Argument.serialize resolver)) ∧
    (∀ (i : Nat) g cg, spec.groups[i]? = some g → p.groups[i]? = some cg →
      cg.arguments.length = g.arguments.length ∧
      ∀ j : Nat, (cg.arguments[j]?).map ConcreteArgument.aliases =
        (g.arguments[j]?).map Argument.aliases) := by
  obtain ⟨reg2, hag⟩ := to_argparse_ok hp
  obtain ⟨hlen, hcorr, _, _, _, _⟩ := addGroups_ok hag
  unfold ParserSpec.serialize at hdoc
  cases hmg : mapMOption (Group.serialize resolver) spec.groups with
  | none => rw [hmg] at hdoc; cases hdoc
  | some gds =>
    rw [hmg] at hdoc
    cases hdoc
    obtain ⟨hglen, hgi⟩ := mapMOption_eq_some hmg
    refine ⟨hglen, hlen, ?_, ?_, ?_, ?_⟩
    · intro i
      cases hsi : spec.groups[i]? with
      | none =>
        have : gds[i]? = none := by rw [hgi i, hsi]; rfl
        simp [this, hsi]
      | some g =>
        have hgds : gds[i]? = Group.serialize resolver g := by rw [hgi i, hsi]; rfl
        unfold Group.serialize at hgds
        cases hma : mapMOption (Argument.serialize resolver) g.arguments with
        | none =>
          rw [hma] at hgds
          have hin : i < gds.length := by
            rw [hglen]
            exact lt_of_getElem?_some hsi
          obtain ⟨gd, hgd⟩ := getElem?_some_of_lt hin
          rw [hgd] at hgds
          cases hgds
        | some docs =>
          rw [hma] at hgds
          simp only [Option.map_some'] at hgds
          simp [hgds]
    · intro i
      cases hsi : spec.groups[i]? with
      | none =>
        have : p.groups[i]? = none := by
          cases hpi : p.groups[i]? with
          | none => rfl
          | some cg =>
            have h1 := lt_of_getElem?_some hpi
            rw [hlen] at h1
            obtain ⟨g, hg⟩ := getElem?_some_of_lt h1
            rw [hg] at hsi
            cases hsi
        simp [this]
      | some g =>
        obtain ⟨cg, hcg, ht, _, _, _, _, _⟩ := hcorr i g hsi
        simp [hcg, ht]
    · intro i g gd hsi hdi
      have hgds : gds[i]? = Group.serialize resolver g := by rw [hgi i, hsi]; rfl
      rw [hdi] at hgds
      unfold Group.serialize at hgds
      cases hma : mapMOption (Argument.serialize resolver) g.arguments with
      | none => rw [hma] at hgds; cases hgds
      | some docs =>
        rw [hma] at hgds
        simp only [Option.map_some'] at hgds
        obtain ⟨halen, hai⟩ := mapMOption_eq_some hma
        cases hgds
        exact ⟨halen, hai⟩
    · intro i g cg hsi hpi
      obtain ⟨cg', hcg', _, _, _, _, hal, hali⟩ := hcorr i g hsi
      rw [hpi] at hcg'
      cases hcg'
      exact ⟨hal, hali⟩

theorem C4_order_preservation_witness :
    ((SpecDoc.mk "http" "demo description"
      [GroupDoc.mk "Download" "" true
        [[("options", PyValue.strList ["--download"])],
         [("options", PyValue.strList ["--output"])]],
       GroupDoc.mk "Positional" "" false
        [[("options", PyValue.str "URL"), ("is_positional", PyValue.bool true),
          ("metavar", PyValue.str "URL")]]]).groups[0]?).map GroupDoc.name =
      (demoSpec.groups[0]?).map Group.name ∧
    (((ConcreteParser.mk "http" "demo description" "demo epilog"
      [ConcreteGroup.mk "Download" "" true false
        [ConcreteArgument.mk ["--download"] [], ConcreteArgument.mk ["--output"] []],
       ConcreteGroup.mk "Positional" "" false false
        [ConcreteArgument.mk [] [("metavar", PyValue.str "URL")]]]).groups[1]?).map
      ConcreteGroup.title) = (demoSpec.groups[1]?).map Group.name := by
  have h := C4_order_preservation emptyResolver demoSpec
    (SpecDoc.mk "http" "demo description"
      [GroupDoc.mk "Download" "" true
        [[("options", PyValue.strList ["--download"])],
         [("options", PyValue.strList ["--output"])]],
       GroupDoc.mk "Positional" "" false
        [[("options", PyValue.str "URL"), ("is_positional", PyValue.bool true),
          ("metavar", PyValue.str "URL")]]])
    (ConcreteParser.mk "http" "demo description" "demo epilog"
      [ConcreteGroup.mk "Download" "" true false
        [ConcreteArgument.mk ["--download"] [], ConcreteArgument.mk ["--output"] []],
       ConcreteGroup.mk "Positional" "" false false
        [ConcreteArgument.mk [] [("metavar", PyValue.str "URL")]]])
    rfl rfl
  exact ⟨h.2.2.1 0, h.2.2.2.1 1⟩

theorem suppliedCount_nil (cg : ConcreteGroup) : cg.suppliedCount [] = 0 := by
  unfold ConcreteGroup.suppliedCount
  rw [List.countP_eq_zero]
  intro a _
  simp

theorem group_accepts_of {cg : ConcreteGroup} {sup : List String}
    (hreq : cg.exclusiveRequired = false) (hcount : cg.suppliedCount sup ≤ 1) :
    cg.acceptsSupplied sup = true := by
  unfold ConcreteGroup.acceptsSupplied
  cases hex : cg.isExclusive with
  | false => simp
  | true => simp [hreq, hcount]

theorem group_rejects_of {cg : ConcreteGroup} {sup : List String}
    (hex : cg.isExclusive = true) (hcount : 2 ≤ cg.suppliedCount sup) :
    cg.acceptsSupplied sup = false := by
  unfold ConcreteGroup.acceptsSupplied
  rw [hex]
  have hnot : ¬ (cg.suppliedCount sup ≤ 1) := by omega
  simp [hnot]

theorem parser_accepts_of {p : ConcreteParser} {sup : List String}
    (h : ∀ cg ∈ p.groups, cg.acceptsSupplied sup = true) :
    p.acceptsSupplied sup = true := by
  unfold ConcreteParser.acceptsSupplied
  exact List.all_eq_true.mpr h

theorem parser_rejects_of {p : ConcreteParser} {sup : List String} {cg : ConcreteGroup}
    (hmem : cg ∈ p.groups) (hcg : cg.acceptsSupplied sup = false) :
    p.acceptsSupplied sup = false := by
  unfold ConcreteParser.acceptsSupplied
  cases hall : p.groups.all (fun g => g.acceptsSupplied sup) with
  | false => rfl
  | true =>
    have h2 := List.all_eq_true.mp hall cg hmem
    rw [hcg] at h2
    cases h2

theorem mem_of_supplied_singleton {ca : ConcreteArgument} {x : String}
    (h : ca.aliases.any (fun al => List.contains [x] al) = true) : x ∈ ca.aliases := by
  obtain ⟨al, hal, hc⟩ := List.any_eq_true.mp h
  have hax : al = x := by simpa using hc
  exact hax ▸ hal

theorem abstract_to_concrete {cargs : List ConcreteArgument} {args : List Argument}
    (hal : ∀ j : Nat, (cargs[j]?).map ConcreteArgument.aliases =
      (args[j]?).map Argument.aliases)
    {j : Nat} {a : Argument} (hj : args[j]? = some a) :
    ∃ ca, cargs[j]? = some ca ∧ ca.aliases = a.aliases := by
  have hh := hal j
  rw [hj] at hh
  cases hja : cargs[j]? with
  | none => rw [hja] at hh; simp at hh
  | some ca => rw [hja] at hh; simp at hh; exact ⟨ca, rfl, hh⟩

theorem concrete_to_abstract {cargs : List ConcreteArgument} {args : List Argument}
    (hal : ∀ j : Nat, (cargs[j]?).map ConcreteArgument.aliases =
      (args[j]?).map Argument.aliases)
    {j : Nat} {ca : ConcreteArgument} (hj : cargs[j]? = some ca) :
    ∃ a, args[j]? = some a ∧ ca.aliases = a.aliases := by
  have hh := hal j
  rw [hj] at hh
  cases hja : args[j]? with
  | none => rw [hja] at hh; simp at hh
  | some a => rw [hja] at hh; simp at hh; exact ⟨a, rfl, hh⟩

/-- Claim C7: compiling a `ParserSpec` places every mutually-exclusive group's
arguments in a nested mutual-exclusion construct created with
`required = false`, so the compiled parser accepts an invocation supplying at
most one of that group's arguments (including none) and rejects one supplying
two of them together. -/
theorem C7_mutual_exclusion (spec : ParserSpec) (p : ConcreteParser)
    (gi a1 a2 : Nat) (g : Group) (argA argB : Argument) (x y : String)
    (hp : to_argparse spec = Except.ok p)
    (hg : spec.groups[gi]? = some g)
    (hmx : g.is_mutually_exclusive = true)
    (hne : a1 ≠ a2)
    (hA : g.arguments[a1]? = some argA) (hB : g.arguments[a2]? = some argB)
    (hxA : x ∈ argA.aliases) (hyB : y ∈ argB.aliases) :
    ((p.groups[gi]?).map ConcreteGroup.isExclusive = some true) ∧
    ((p.groups[gi]?).map ConcreteGroup.exclusiveRequired = some false) ∧
    p.acceptsSupplied [] = true ∧
    p.acceptsSupplied [x] = true ∧
    p.acceptsSupplied [y] = true ∧
    p.acceptsSupplied [x, y] = false := by
  obtain ⟨reg2, hag⟩ := to_argparse_ok hp
  obtain ⟨hlen, hcorr, _, _, _, hdisj⟩ := addGroups_ok hag
  obtain ⟨cg, hcg, hct, hcd, hcx, hcr, hcal, hcali⟩ := hcorr gi g hg
  have acceptsOne : ∀ z : String, p.acceptsSupplied [z] = true := by
    intro z
    apply parser_accepts_of
    intro cg' hcg'
    obtain ⟨i, hi⟩ := getElemOfMem hcg'
    have hip : i < p.groups.length := lt_of_getElem?_some hi
    have hi2 : i < spec.groups.length := by
      have := hlen
      omega
    obtain ⟨g', hg'⟩ := getElem?_some_of_lt hi2
    obtain ⟨cg2, hcg2, _, _, _, hreq2, _, hali2⟩ := hcorr i g' hg'
    rw [hi] at hcg2
    cases hcg2
    apply group_accepts_of hreq2
    apply countP_le_one
    intro j j2 ca cb hjj hja hjb hpp
    obtain ⟨hpa, hpb⟩ := hpp
    have hza : z ∈ ca.aliases := mem_of_supplied_singleton hpa
    have hzb : z ∈ cb.aliases := mem_of_supplied_singleton hpb
    obtain ⟨aa, haa, haal⟩ := concrete_to_abstract hali2 hja
    obtain ⟨ab, hab, habl⟩ := concrete_to_abstract hali2 hjb
    exact hdisj i g' j aa i g' j2 ab hg' hg' haa hab
      (fun he => hjj (congrArg Prod.snd he)) z (haal ▸ hza) (habl ▸ hzb)
  refine ⟨by rw [hcg]; simp [hcx, hmx], by rw [hcg]; simp [hcr], ?_, acceptsOne x,
    acceptsOne y, ?_⟩
  · apply parser_accepts_of
    intro cg' hcg'
    obtain ⟨i, hi⟩ := getElemOfMem hcg'
    have hip : i < p.groups.length := lt_of_getElem?_some hi
    have hi2 : i < spec.groups.length := by
      have := hlen
      omega
    obtain ⟨g', hg'⟩ := getElem?_some_of_lt hi2
    obtain ⟨cg2, hcg2, _, _, _, hreq2, _, _⟩ := hcorr i g' hg'
    rw [hi] at hcg2
    cases hcg2
    apply group_accepts_of hreq2
    rw [suppliedCount_nil]
    omega
  · obtain ⟨ca, hca, hcaal⟩ := abstract_to_concrete hcali hA
    obtain ⟨cb, hcb, hcbal⟩ := abstract_to_concrete hcali hB
    apply parser_rejects_of (memOfGetElem hcg)
    apply group_rejects_of (by rw [hcx]; exact hmx)
    unfold ConcreteGroup.suppliedCount
    apply two_le_countP hne hca hcb
    · exact List.any_eq_true.mpr ⟨x, hcaal ▸ hxA, by simp⟩
    · exact List.any_eq_true.mpr ⟨y, hcbal ▸ hyB, by simp⟩

theorem C7_mutual_exclusion_witness :
    (((ConcreteParser.mk "http" "demo description" "demo epilog"
      [ConcreteGroup.mk "Download" "" true false
        [ConcreteArgument.mk ["--download"] [], ConcreteArgument.mk ["--output"] []],
       ConcreteGroup.mk "Positional" "" false false
        [ConcreteArgument.mk [] [("metavar", PyValue.str "URL")]]]).groups[0]?).map
      ConcreteGroup.isExclusive = some true) ∧
    (ConcreteParser.mk "http" "demo description" "demo epilog"
      [ConcreteGroup.mk "Download" "" true false
        [ConcreteArgument.mk ["--download"] [], ConcreteArgument.mk ["--output"] []],
       ConcreteGroup.mk "Positional" "" false false
        [ConcreteArgument.mk [] [("metavar", PyValue.str "URL")]]]).acceptsSupplied
      ["--download"] = true ∧
    (ConcreteParser.mk "http" "demo description" "demo epilog"
      [ConcreteGroup.mk "Download" "" true false
        [ConcreteArgument.mk ["--download"] [], ConcreteArgument.mk ["--output"] []],
       ConcreteGroup.mk "Positional" "" false false
        [ConcreteArgument.mk [] [("metavar", PyValue.str "URL")]]]).acceptsSupplied
      ["--download", "--output"] = false := by
  have h := C7_mutual_exclusion demoSpec
    (ConcreteParser.mk "http" "demo description" "demo epilog"
      [ConcreteGroup.mk "Download" "" true false
        [ConcreteArgument.mk ["--download"] [], ConcreteArgument.mk ["--output"] []],
       ConcreteGroup.mk "Positional" "" false false
        [ConcreteArgument.mk [] [("metavar", PyValue.str "URL")]]])
    0 0 1
    (Group.mk "Download" "" true [Argument.mk ["--download"] [], Argument.mk ["--output"] []])
    (Argument.mk ["--download"] []) (Argument.mk ["--output"] [])
    "--download" "--output"
    rfl rfl rfl (by decide) rfl rfl (by decide) (by decide)
  exact ⟨h.1, h.2.2.2.1, h.2.2.2.2.2⟩

end HttpieOptions
